import Mathlib

/-!
Verification of the sparse-matrix core of the `DSA` repository
(`hw02/matrix.py`) against its natural-language specification.

The Python class `SparseMatrix` is shallowly embedded: the element
dictionary becomes an ordered association list (Python dicts preserve
insertion order; an assignment to a present key updates the value in
place, and `del` removes the pair), text is a `String` processed as a
`List Char`, and the `ValueError`s raised by the methods become an
explicit `MatrixError` value.
-/

set_option linter.unusedVariables false

/-- The error kinds of the design: parse failures (`ValueError("Input file
has wrong format")`), dimension mismatches
(`ValueError("Matrices dimensions do not match ...")`), and the unknown
operation selector of `process_file`. -/
inductive MatrixError where
  | formatError
  | dimensionMismatch
  | invalidOperation
deriving DecidableEq, Repr

/-- The ASCII whitespace recognised both by Python's `str.strip()` and by
the regex class `\s` (the inputs here are ASCII). -/
def isPySpace (c : Char) : Bool :=
  c = ' ' || c = '\t' || c = '\n' || c = '\r' || c = '\x0b' || c = '\x0c'

/-- `str.strip()`: remove leading and trailing whitespace. -/
def pyStripL (cs : List Char) : List Char :=
  ((cs.dropWhile isPySpace).reverse.dropWhile isPySpace).reverse

/-- Numeric value of a list of decimal digit characters (most significant
first), as accumulated left to right. -/
def digitsVal (cs : List Char) : Nat :=
  cs.foldl (fun a c => a * 10 + (c.toNat - 48)) 0

/-- Parse a non-empty all-digit string, as the digit part of Python's
`int()` does.  (Python additionally allows underscore group separators
and non-ASCII digits; the texts handled here never contain either.) -/
def parseDigits (cs : List Char) : Option Nat :=
  if cs ≠ [] ∧ cs.all Char.isDigit then some (digitsVal cs) else none

/-- Python's `int(s)` on ASCII text: strip whitespace, optional sign,
then a non-empty run of digits; anything else raises `ValueError`
(modelled as `none`). -/
def pyInt (cs : List Char) : Option Int :=
  match pyStripL cs with
  | '-' :: ds => (parseDigits ds).map (fun n => -(n : Int))
  | '+' :: ds => (parseDigits ds).map (fun n => (n : Int))
  | ds => (parseDigits ds).map (fun n => (n : Int))

/-- Python's `s.split('=')`: the pieces of `s` between occurrences of
`'='`; always non-empty (`"".split('=') == ['']`). -/
def splitEq : List Char → List (List Char)
  | [] => [[]]
  | c :: cs =>
    if c = '=' then [] :: splitEq cs
    else
      match splitEq cs with
      | [] => [[c]]
      | p :: ps => (c :: p) :: ps

/-- Python's `file.readlines()` on the file's text: split after each
`'\n'`, keeping the newline; a final fragment without a newline is kept,
an empty final fragment is not. -/
def pyReadlines : List Char → List (List Char)
  | [] => []
  | c :: cs =>
    if c = '\n' then ['\n'] :: pyReadlines cs
    else
      match pyReadlines cs with
      | [] => [[c]]
      | l :: ls => (c :: l) :: ls

/-- The greedy `\d+` of the regex engine: take a maximal non-empty run of
digits, returning its value and the rest.  (Greedy matching with no
backtracking is exact here, because in the pattern every `\d+` is
followed by a character that is not a digit.) -/
def takeDigits (cs : List Char) : Option (Nat × List Char) :=
  let ds := cs.takeWhile Char.isDigit
  if ds.isEmpty then none else some (digitsVal ds, cs.dropWhile Char.isDigit)

/-- The `-?\d+` part of the pattern: an optional minus sign followed by
a greedy digit run. -/
def readSign (cs : List Char) : Option (Int × List Char) :=
  match cs with
  | '-' :: cs => (takeDigits cs).map (fun p => (-(p.1 : Int), p.2))
  | cs => (takeDigits cs).map (fun p => ((p.1 : Int), p.2))

/-- Consume one expected literal character. -/
def expectChar (c : Char) (cs : List Char) : Option (List Char) :=
  match cs with
  | x :: rest => if x = c then some rest else none
  | [] => none

/-- The parsing core of the pattern `\((\d+),\s*(\d+),\s*(-?\d+)\)`:
on success, the captured `(row, col, value)` and the text left over
after the closing parenthesis.  (Greedy `\d+`/`\s*` with no backtracking
is exact here because each is followed by a character it cannot
consume.) -/
def tripleMatchCore (cs : List Char) : Option ((Nat × Nat × Int) × List Char) :=
  match expectChar '(' cs with
  | none => none
  | some cs =>
    match takeDigits cs with
    | none => none
    | some (r, cs) =>
      match expectChar ',' cs with
      | none => none
      | some cs =>
        let cs := cs.dropWhile isPySpace
        match takeDigits cs with
        | none => none
        | some (c, cs) =>
          match expectChar ',' cs with
          | none => none
          | some cs =>
            let cs := cs.dropWhile isPySpace
            match readSign cs with
            | none => none
            | some (v, cs) =>
              match expectChar ')' cs with
              | none => none
              | some rest => some ((r, c, v), rest)

/-- `re.match(r'\((\d+),\s*(\d+),\s*(-?\d+)\)', line)`: anchored at the
start of the line but NOT at its end (`re.match` performs a prefix
match, so trailing text after the closing parenthesis is accepted). -/
def tripleMatch (cs : List Char) : Option (Nat × Nat × Int) :=
  (tripleMatchCore cs).map Prod.fst

/-- The fully anchored form of the pattern: the whole line must be
`(r, c, v)` with nothing after the closing parenthesis.  This is what
the spec's strict triple pattern denotes; the code's `re.match` does not
require it. -/
def tripleMatchStrict (cs : List Char) : Option (Nat × Nat × Int) :=
  match tripleMatchCore cs with
  | some (rcv, []) => some rcv
  | _ => none

/-- Decimal rendering of a natural number (the digits Python's `str()`
produces). -/
def digitChar (d : Nat) : Char :=
  if d = 0 then '0' else if d = 1 then '1' else if d = 2 then '2'
  else if d = 3 then '3' else if d = 4 then '4' else if d = 5 then '5'
  else if d = 6 then '6' else if d = 7 then '7' else if d = 8 then '8'
  else '9'

/-- Decimal digit string of a natural number, most significant first. -/
def natReprL (n : Nat) : List Char :=
  if h : n < 10 then [digitChar n]
  else natReprL (n / 10) ++ [digitChar (n % 10)]
decreasing_by exact Nat.div_lt_self (by omega) (by omega)

/-- Decimal rendering of an integer, as Python's `str()` renders an
`int`. -/
def intReprL (v : Int) : List Char :=
  if v < 0 then '-' :: natReprL v.natAbs else natReprL v.toNat

/-- The sparse matrix: declared dimensions and the ordered dictionary of
non-zero elements (`self.Rows`, `self.Colu`, `self.elements`).  The
dimensions are `Int` because `int()` can produce a negative number from
a header line. -/
structure SparseMatrix where
  Rows : Int
  Colu : Int
  elements : List ((Nat × Nat) × Int)
deriving DecidableEq, Repr

/-- `SparseMatrix()`: zero rows, zero columns, empty dictionary. -/
def emptyMatrix : SparseMatrix := ⟨0, 0, []⟩

/-- `d.get(k, 0)`-style lookup in the ordered dictionary. -/
def dictGet (l : List ((Nat × Nat) × Int)) (k : Nat × Nat) : Option Int :=
  match l with
  | [] => none
  | p :: rest => if p.1 = k then some p.2 else dictGet rest k

/-- `d[k] = v`: update in place if the key is present (Python dicts keep
the key's position), otherwise append at the end. -/
def dictSet (l : List ((Nat × Nat) × Int)) (k : Nat × Nat) (v : Int) :
    List ((Nat × Nat) × Int) :=
  match l with
  | [] => [(k, v)]
  | p :: rest => if p.1 = k then (k, v) :: rest else p :: dictSet rest k v

/-- `del d[k]`: remove the key's pair (`setElement` only deletes keys it
has checked are present). -/
def dictDel (l : List ((Nat × Nat) × Int)) (k : Nat × Nat) :
    List ((Nat × Nat) × Int) :=
  match l with
  | [] => []
  | p :: rest => if p.1 = k then rest else p :: dictDel rest k

/-- `(r, c) in self.elements`. -/
def dictHasKey (l : List ((Nat × Nat) × Int)) (k : Nat × Nat) : Bool :=
  (dictGet l k).isSome

/-- `getElement`: `self.elements.get((currRow, currCol), 0)`. -/
def getElement (m : SparseMatrix) (currRow currCol : Nat) : Int :=
  (dictGet m.elements (currRow, currCol)).getD 0

/-- `setElement`: store a non-zero value; a zero value deletes the entry
if present and otherwise does nothing. -/
def setElement (m : SparseMatrix) (currRow currCol : Nat) (value : Int) :
    SparseMatrix :=
  if value ≠ 0 then
    { m with elements := dictSet m.elements (currRow, currCol) value }
  else if dictHasKey m.elements (currRow, currCol) then
    { m with elements := dictDel m.elements (currRow, currCol) }
  else m

/-- Whether the matrix stores an entry at the coordinate. -/
def hasKey (m : SparseMatrix) (k : Nat × Nat) : Bool :=
  dictHasKey m.elements k

/-- `self.elements.keys()` in dictionary (insertion) order. -/
def keysOf (m : SparseMatrix) : List (Nat × Nat) :=
  m.elements.map Prod.fst

/-- `set(a).union(b)` over key lists.  Python iterates a `set` in an
unspecified order; since `add`/`subtract` write each key exactly once
with a value that does not depend on the iteration order, every
enumeration of the union produces the same mapping, and we fix the
enumeration: `a`'s distinct keys in order, then `b`'s distinct keys not
in `a`. -/
def setUnion (a b : List (Nat × Nat)) : List (Nat × Nat) :=
  a.dedup ++ b.dedup.filter (fun k => !a.contains k)

/-- `add`, with the operands threaded through explicitly: the Python
body reads `self` and `other` and writes only the fresh `result`, and
the returned first two components are the operands as the method leaves
them. -/
def addM (self other : SparseMatrix) :
    SparseMatrix × SparseMatrix × Except MatrixError SparseMatrix :=
  if self.Rows ≠ other.Rows ∨ self.Colu ≠ other.Colu then
    (self, other, .error .dimensionMismatch)
  else
    let result : SparseMatrix := { Rows := self.Rows, Colu := self.Colu, elements := [] }
    let all_keys := setUnion (keysOf self) (keysOf other)
    let result := all_keys.foldl
      (fun res key =>
        setElement res key.1 key.2
          (getElement self key.1 key.2 + getElement other key.1 key.2))
      result
    (self, other, .ok result)

/-- The value `add` returns (or the error it raises). -/
def add (self other : SparseMatrix) : Except MatrixError SparseMatrix :=
  (addM self other).2.2

/-- `subtract`, operands threaded as in `addM`. -/
def subtractM (self other : SparseMatrix) :
    SparseMatrix × SparseMatrix × Except MatrixError SparseMatrix :=
  if self.Rows ≠ other.Rows ∨ self.Colu ≠ other.Colu then
    (self, other, .error .dimensionMismatch)
  else
    let result : SparseMatrix := { Rows := self.Rows, Colu := self.Colu, elements := [] }
    let all_keys := setUnion (keysOf self) (keysOf other)
    let result := all_keys.foldl
      (fun res key =>
        setElement res key.1 key.2
          (getElement self key.1 key.2 - getElement other key.1 key.2))
      result
    (self, other, .ok result)

/-- The value `subtract` returns (or the error it raises). -/
def subtract (self other : SparseMatrix) : Except MatrixError SparseMatrix :=
  (subtractM self other).2.2

/-- `multiply`, operands threaded as in `addM`: for every stored key
`(i, k)` of `self` (in dictionary order) and every `j` in
`range(other.Colu)`, accumulate through the getter and setter of the
fresh `result`. -/
def multiplyM (self other : SparseMatrix) :
    SparseMatrix × SparseMatrix × Except MatrixError SparseMatrix :=
  if self.Colu ≠ other.Rows then
    (self, other, .error .dimensionMismatch)
  else
    let result : SparseMatrix := { Rows := self.Rows, Colu := other.Colu, elements := [] }
    let result := (keysOf self).foldl
      (fun res ik =>
        (List.range other.Colu.toNat).foldl
          (fun res j =>
            setElement res ik.1 j
              (getElement res ik.1 j + getElement self ik.1 ik.2 * getElement other ik.2 j))
          res)
      result
    (self, other, .ok result)

/-- The value `multiply` returns (or the error it raises). -/
def multiply (self other : SparseMatrix) : Except MatrixError SparseMatrix :=
  (multiplyM self other).2.2

/-- The loop of `read_from_file` over `lines[2:]`: strip each line, skip
blank ones, apply a matched triple through the setter, and abort with
the format error at the first non-blank line that does not match. -/
def readLoop (m : SparseMatrix) : List (List Char) → SparseMatrix × Option MatrixError
  | [] => (m, none)
  | l :: rest =>
    let s := pyStripL l
    if s.isEmpty then readLoop m rest
    else
      match tripleMatch s with
      | some (row, col, value) => readLoop (setElement m row col value) rest
      | none => (m, some .formatError)

/-- `read_from_file`, with the file's text in place of the file: clear
the elements, read `Rows` from `int(lines[0].split('=')[1])` and `Colu`
from line 1 likewise, then run the triple loop.  Every failure
(missing line, missing `'='`, unparseable integer, unmatched line) is
the single `formatError`; the state built before the failing point is
returned alongside it, as the Python instance retains it. -/
def read_from_file (m : SparseMatrix) (text : String) :
    SparseMatrix × Option MatrixError :=
  let m := { m with elements := ([] : List ((Nat × Nat) × Int)) }
  let lines := pyReadlines text.toList
  match lines[0]? with
  | none => (m, some .formatError)
  | some l0 =>
    match (splitEq l0)[1]? with
    | none => (m, some .formatError)
    | some s0 =>
      match pyInt s0 with
      | none => (m, some .formatError)
      | some r =>
        let m := { m with Rows := r }
        match lines[1]? with
        | none => (m, some .formatError)
        | some l1 =>
          match (splitEq l1)[1]? with
          | none => (m, some .formatError)
          | some s1 =>
            match pyInt s1 with
            | none => (m, some .formatError)
            | some c =>
              let m := { m with Colu := c }
              readLoop m (lines.drop 2)

/-- Parsing a text into a fresh matrix, as `process_file` does
(`SparseMatrix()` then `read_from_file`). -/
def parseText (text : String) : SparseMatrix × Option MatrixError :=
  read_from_file emptyMatrix text

/-- Join lines with newline separators (no trailing newline), as
`'\n'.join` does. -/
def unlines : List (List Char) → List Char
  | [] => []
  | [l] => l
  | l :: ls => l ++ '\n' :: unlines ls

/-- One line of `__str__`: `f"({i}, {j}, {value})"`. -/
def entryLineL (p : (Nat × Nat) × Int) : List Char :=
  '(' :: natReprL p.1.1 ++ ',' :: ' ' :: natReprL p.1.2 ++ ',' :: ' ' :: intReprL p.2
    ++ [')']

/-- `__str__`: the entry lines in storage order, joined with newlines. -/
def toStrL (m : SparseMatrix) : List Char :=
  unlines (m.elements.map entryLineL)

/-- The text `process_file` writes for a result matrix:
`rows=<R>\ncols=<C>\n` followed by `str(result)`. -/
def serializeL (m : SparseMatrix) : List Char :=
  'r' :: 'o' :: 'w' :: 's' :: '=' :: intReprL m.Rows
    ++ '\n' :: 'c' :: 'o' :: 'l' :: 's' :: '=' :: intReprL m.Colu
    ++ '\n' :: toStrL m

/-- `serializeL`, as a `String`. -/
def serialize (m : SparseMatrix) : String := ⟨serializeL m⟩

/-- The integer a header line yields: `int(line.split('=')[1])`. -/
def headerVal (l : List Char) : Option Int :=
  match (splitEq l)[1]? with
  | none => none
  | some s => pyInt s

/-- No stored element has value zero (the sparse-storage invariant). -/
def NoZeros (m : SparseMatrix) : Prop := ∀ p ∈ m.elements, p.2 ≠ 0

/-- The stored keys are pairwise distinct (a Python dict cannot hold a
key twice). -/
def KeysNodup (m : SparseMatrix) : Prop := (keysOf m).Nodup

instance (m : SparseMatrix) : Decidable (NoZeros m) := by
  unfold NoZeros; infer_instance

instance (m : SparseMatrix) : Decidable (KeysNodup m) := by
  unfold KeysNodup; infer_instance

/-- The total contribution of the processed occupied coordinates `ks` of
the left operand to the result entry `(i, j)` of `multiply`: the sum of
`A(i,k) * B(k,j)` over the keys `(i, k)` of `ks` lying in row `i`. -/
def rowContrib (A B : SparseMatrix) (ks : List (Nat × Nat)) (i j : Nat) : Int :=
  (ks.map (fun p => if p.1 = i then getElement A p.1 p.2 * getElement B p.2 j else 0)).sum

/-- The entries the triple loop of `read_from_file` accumulates from a
list of lines that contains no offending line: blank lines are skipped
and each matched triple goes through the setter. -/
def applyTriples (m : SparseMatrix) (ls : List (List Char)) : SparseMatrix :=
  ls.foldl
    (fun acc l =>
      if (pyStripL l).isEmpty then acc
      else
        match tripleMatch (pyStripL l) with
        | some (row, col, value) => setElement acc row col value
        | none => acc)
    m

/-! ### Dictionary lemmas -/

theorem dictGet_eq_none_of_not_mem (l : List ((Nat × Nat) × Int)) (k : Nat × Nat)
    (h : k ∉ l.map Prod.fst) : dictGet l k = none := by
  induction l with
  | nil => rfl
  | cons p rest ih =>
    simp only [List.map_cons, List.mem_cons] at h
    push_neg at h
    simp only [dictGet, if_neg (fun hp : p.1 = k => h.1 hp.symm)]
    exact ih h.2

theorem mem_keys_of_dictGet_some (l : List ((Nat × Nat) × Int)) (k : Nat × Nat)
    (w : Int) (h : dictGet l k = some w) : k ∈ l.map Prod.fst := by
  by_contra hmem
  rw [dictGet_eq_none_of_not_mem l k hmem] at h
  exact Option.noConfusion h

theorem dictGet_dictSet_self (l : List ((Nat × Nat) × Int)) (k : Nat × Nat) (v : Int) :
    dictGet (dictSet l k v) k = some v := by
  induction l with
  | nil => simp [dictGet, dictSet]
  | cons p rest ih =>
    by_cases h : p.1 = k
    · simp [dictGet, dictSet, h]
    · simp [dictGet, dictSet, h, ih]

theorem dictGet_dictSet_other (l : List ((Nat × Nat) × Int)) (k k' : Nat × Nat) (v : Int)
    (h : k' ≠ k) : dictGet (dictSet l k v) k' = dictGet l k' := by
  induction l with
  | nil => simp [dictGet, dictSet, Ne.symm h]
  | cons p rest ih =>
    by_cases hp : p.1 = k
    · simp [dictGet, dictSet, hp, Ne.symm h]
    · simp [dictGet, dictSet, hp, ih]

theorem keys_dictDel_not_mem (l : List ((Nat × Nat) × Int)) (k : Nat × Nat)
    (h : (l.map Prod.fst).Nodup) : k ∉ (dictDel l k).map Prod.fst := by
  induction l with
  | nil => simp [dictDel]
  | cons p rest ih =>
    simp only [List.map_cons, List.nodup_cons] at h
    by_cases hp : p.1 = k
    · simp only [dictDel, if_pos hp]
      rw [← hp]
      exact h.1
    · simp only [dictDel, if_neg hp, List.map_cons, List.mem_cons]
      push_neg
      exact ⟨fun hk => hp hk.symm, ih h.2⟩

theorem dictGet_dictDel_self (l : List ((Nat × Nat) × Int)) (k : Nat × Nat)
    (h : (l.map Prod.fst).Nodup) : dictGet (dictDel l k) k = none :=
  dictGet_eq_none_of_not_mem _ _ (keys_dictDel_not_mem l k h)

theorem dictGet_dictDel_other (l : List ((Nat × Nat) × Int)) (k k' : Nat × Nat)
    (h : k' ≠ k) : dictGet (dictDel l k) k' = dictGet l k' := by
  induction l with
  | nil => simp [dictDel]
  | cons p rest ih =>
    by_cases hp : p.1 = k
    · simp [dictDel, dictGet, hp, Ne.symm h]
    · by_cases hk' : p.1 = k'
      · simp [dictDel, dictGet, hp, hk', h]
      · simp [dictDel, dictGet, hp, hk', ih]

theorem mem_dictSet (l : List ((Nat × Nat) × Int)) (k : Nat × Nat) (v : Int)
    (p : (Nat × Nat) × Int) (h : p ∈ dictSet l k v) : p = (k, v) ∨ p ∈ l := by
  induction l with
  | nil => simpa [dictSet] using h
  | cons q rest ih =>
    by_cases hq : q.1 = k
    · simp only [dictSet, if_pos hq, List.mem_cons] at h
      rcases h with h | h
      · exact Or.inl h
      · exact Or.inr (List.mem_cons_of_mem _ h)
    · simp only [dictSet, if_neg hq, List.mem_cons] at h
      rcases h with h | h
      · exact Or.inr (by simp [h])
      · rcases ih h with h' | h'
        · exact Or.inl h'
        · exact Or.inr (List.mem_cons_of_mem _ h')

theorem dictDel_sublist (l : List ((Nat × Nat) × Int)) (k : Nat × Nat) :
    (dictDel l k).Sublist l := by
  induction l with
  | nil => simp [dictDel]
  | cons p rest ih =>
    by_cases hp : p.1 = k
    · simp only [dictDel, if_pos hp]
      exact (List.Sublist.refl _).cons _
    · simp only [dictDel, if_neg hp]
      exact ih.cons₂ _

theorem keys_dictSet_nodup (l : List ((Nat × Nat) × Int)) (k : Nat × Nat) (v : Int)
    (h : (l.map Prod.fst).Nodup) : ((dictSet l k v).map Prod.fst).Nodup := by
  induction l with
  | nil => simp [dictSet]
  | cons p rest ih =>
    simp only [List.map_cons, List.nodup_cons] at h
    by_cases hp : p.1 = k
    · subst hp
      simp only [dictSet, eq_self_iff_true, if_true, List.map_cons, List.nodup_cons]
      exact ⟨h.1, h.2⟩
    · simp only [dictSet, if_neg hp, List.map_cons, List.nodup_cons]
      refine ⟨fun hm => ?_, ih h.2⟩
      simp only [List.mem_map] at hm
      rcases hm with ⟨q, hq, hq1⟩
      rcases mem_dictSet _ _ _ _ hq with h' | h'
      · exact hp (by rw [← hq1, h'])
      · exact h.1 (by simpa [hq1] using List.mem_map_of_mem Prod.fst h')

/-! ### `setElement` / `getElement` lemmas -/

theorem setElement_Rows (m : SparseMatrix) (r c : Nat) (v : Int) :
    (setElement m r c v).Rows = m.Rows := by
  unfold setElement; split <;> [rfl; (split <;> rfl)]

theorem setElement_Colu (m : SparseMatrix) (r c : Nat) (v : Int) :
    (setElement m r c v).Colu = m.Colu := by
  unfold setElement; split <;> [rfl; (split <;> rfl)]

theorem getElement_setElement_self (m : SparseMatrix) (r c : Nat) (v : Int)
    (h : KeysNodup m) : getElement (setElement m r c v) r c = v := by
  by_cases hv : v = 0
  · subst hv
    unfold setElement
    rw [if_neg (by simp)]
    by_cases hk : dictHasKey m.elements (r, c)
    · rw [if_pos hk]
      simp only [getElement]
      rw [dictGet_dictDel_self _ _ h]
      rfl
    · rw [if_neg hk]
      unfold dictHasKey at hk
      simp only [getElement]
      rcases ho : dictGet m.elements (r, c) with _ | w
      · simp
      · rw [ho] at hk; simp at hk
  · unfold setElement
    rw [if_pos hv]
    simp only [getElement]
    rw [dictGet_dictSet_self]
    rfl

theorem getElement_setElement_other (m : SparseMatrix) (r c i j : Nat) (v : Int)
    (h : (i, j) ≠ (r, c)) : getElement (setElement m r c v) i j = getElement m i j := by
  by_cases hv : v = 0
  · subst hv
    unfold setElement
    rw [if_neg (by simp)]
    by_cases hk : dictHasKey m.elements (r, c)
    · rw [if_pos hk]
      simp only [getElement]
      rw [dictGet_dictDel_other _ _ _ h]
    · rw [if_neg hk]
  · unfold setElement
    rw [if_pos hv]
    simp only [getElement]
    rw [dictGet_dictSet_other _ _ _ _ h]

theorem hasKey_setElement_self (m : SparseMatrix) (r c : Nat) (v : Int)
    (h : KeysNodup m) : hasKey (setElement m r c v) (r, c) = decide (v ≠ 0) := by
  by_cases hv : v = 0
  · subst hv
    unfold setElement
    rw [if_neg (by simp)]
    by_cases hk : dictHasKey m.elements (r, c)
    · rw [if_pos hk]
      simp only [hasKey, dictHasKey]
      rw [dictGet_dictDel_self _ _ h]
      simp
    · rw [if_neg hk]
      unfold hasKey
      unfold dictHasKey at hk ⊢
      simpa using hk
  · unfold setElement
    rw [if_pos hv]
    simp only [hasKey, dictHasKey]
    rw [dictGet_dictSet_self]
    simpa using hv

theorem hasKey_setElement_other (m : SparseMatrix) (r c : Nat) (k : Nat × Nat) (v : Int)
    (h : k ≠ (r, c)) : hasKey (setElement m r c v) k = hasKey m k := by
  by_cases hv : v = 0
  · subst hv
    unfold setElement
    rw [if_neg (by simp)]
    by_cases hk : dictHasKey m.elements (r, c)
    · rw [if_pos hk]
      simp only [hasKey, dictHasKey]
      rw [dictGet_dictDel_other _ _ _ h]
    · rw [if_neg hk]
  · unfold setElement
    rw [if_pos hv]
    simp only [hasKey, dictHasKey]
    rw [dictGet_dictSet_other _ _ _ _ h]

theorem KeysNodup_setElement (m : SparseMatrix) (r c : Nat) (v : Int)
    (h : KeysNodup m) : KeysNodup (setElement m r c v) := by
  unfold KeysNodup keysOf at h ⊢
  unfold setElement
  by_cases hv : v ≠ 0
  · simpa [hv] using keys_dictSet_nodup _ _ _ h
  · push_neg at hv
    subst hv
    by_cases hk : dictHasKey m.elements (r, c)
    · simp only [ne_eq, not_true_eq_false, if_false, hk, if_true]
      exact h.sublist ((dictDel_sublist _ _).map Prod.fst)
    · simpa [hk] using h

theorem NoZeros_setElement (m : SparseMatrix) (r c : Nat) (v : Int)
    (h : NoZeros m) : NoZeros (setElement m r c v) := by
  unfold NoZeros at h ⊢
  unfold setElement
  by_cases hv : v ≠ 0
  · rw [if_pos hv]
    intro p hp
    rcases mem_dictSet _ _ _ _ hp with h' | h'
    · subst h'; exact hv
    · exact h p h'
  · push_neg at hv
    subst hv
    by_cases hk : dictHasKey m.elements (r, c)
    · simp only [ne_eq, not_true_eq_false, if_false, hk, if_true]
      intro p hp
      exact h p ((dictDel_sublist _ _).mem hp)
    · simpa [hk] using h

theorem getElement_eq_zero_of_not_mem (m : SparseMatrix) (i j : Nat)
    (h : (i, j) ∉ keysOf m) : getElement m i j = 0 := by
  unfold getElement
  rw [dictGet_eq_none_of_not_mem _ _ h]
  rfl

theorem hasKey_false_of_not_mem (m : SparseMatrix) (k : Nat × Nat)
    (h : k ∉ keysOf m) : hasKey m k = false := by
  unfold hasKey dictHasKey
  rw [dictGet_eq_none_of_not_mem _ _ h]
  rfl

theorem hasKey_false_iff_getElement_zero_or (m : SparseMatrix) (i j : Nat) :
    hasKey m (i, j) = false → getElement m i j = 0 := by
  unfold hasKey dictHasKey getElement
  rcases ho : dictGet m.elements (i, j) with _ | w <;> simp

/-! ### Folding `setElement` over a list of distinct keys with an
order-independent value function (the `add`/`subtract` loop) -/

theorem foldl_set_indep (f : Nat × Nat → Int) (ks : List (Nat × Nat)) (m0 : SparseMatrix)
    (hnd : ks.Nodup) (hm0 : KeysNodup m0) :
    KeysNodup (ks.foldl (fun res k => setElement res k.1 k.2 (f k)) m0) ∧
    (ks.foldl (fun res k => setElement res k.1 k.2 (f k)) m0).Rows = m0.Rows ∧
    (ks.foldl (fun res k => setElement res k.1 k.2 (f k)) m0).Colu = m0.Colu ∧
    (∀ k : Nat × Nat, getElement (ks.foldl (fun res k => setElement res k.1 k.2 (f k)) m0) k.1 k.2
      = if k ∈ ks then f k else getElement m0 k.1 k.2) ∧
    (∀ k : Nat × Nat, hasKey (ks.foldl (fun res k => setElement res k.1 k.2 (f k)) m0) k
      = if k ∈ ks then decide (f k ≠ 0) else hasKey m0 k) := by
  induction ks generalizing m0 with
  | nil => simp [hm0]
  | cons k ks ih =>
    simp only [List.nodup_cons] at hnd
    have hm1 : KeysNodup (setElement m0 k.1 k.2 (f k)) := KeysNodup_setElement _ _ _ _ hm0
    obtain ⟨ihnd, ihR, ihC, ihget, ihkey⟩ := ih (setElement m0 k.1 k.2 (f k)) hnd.2 hm1
    simp only [List.foldl_cons]
    refine ⟨ihnd, ?_, ?_, ?_, ?_⟩
    · rw [ihR, setElement_Rows]
    · rw [ihC, setElement_Colu]
    · intro k'
      rw [ihget k']
      by_cases hmem : k' ∈ ks
      · simp [hmem]
      · by_cases hk : k' = k
        · subst hk
          simp only [hmem, if_false, List.mem_cons, true_or, if_true]
          have := getElement_setElement_self m0 k'.1 k'.2 (f k') hm0
          simpa using this
        · have hne : (k'.1, k'.2) ≠ (k.1, k.2) := by
            intro hcontra
            exact hk (Prod.ext (congrArg Prod.fst hcontra) (congrArg Prod.snd hcontra))
          simp only [hmem, if_false, List.mem_cons, hk, false_or]
          rw [getElement_setElement_other m0 k.1 k.2 k'.1 k'.2 (f k) hne]
    · intro k'
      rw [ihkey k']
      by_cases hmem : k' ∈ ks
      · simp [hmem]
      · by_cases hk : k' = k
        · subst hk
          simp only [hmem, if_false, List.mem_cons, true_or, if_true]
          have := hasKey_setElement_self m0 k'.1 k'.2 (f k') hm0
          simpa using this
        · have hne : k' ≠ (k.1, k.2) := by simpa using hk
          simp only [hmem, if_false, List.mem_cons, hk, false_or]
          rw [hasKey_setElement_other m0 k.1 k.2 k' (f k) hne]

theorem mem_setUnion (a b : List (Nat × Nat)) (k : Nat × Nat) :
    k ∈ setUnion a b ↔ k ∈ a ∨ k ∈ b := by
  simp only [setUnion, List.mem_append, List.mem_dedup, List.mem_filter,
    Bool.not_eq_true']
  constructor
  · rintro (h | ⟨h, _⟩)
    · exact Or.inl h
    · exact Or.inr h
  · rintro (h | h)
    · exact Or.inl h
    · by_cases ha : k ∈ a
      · exact Or.inl ha
      · refine Or.inr ⟨h, ?_⟩
        rw [← Bool.not_eq_true]
        simpa [List.contains] using fun hc => ha (List.elem_iff.mp hc)

theorem setUnion_nodup (a b : List (Nat × Nat)) : (setUnion a b).Nodup := by
  refine List.Nodup.append (List.nodup_dedup a) ((List.nodup_dedup b).filter _) ?_
  intro k hka hkb
  rw [List.mem_dedup] at hka
  rcases List.mem_filter.mp hkb with ⟨_, hc⟩
  rw [Bool.not_eq_true'] at hc
  rw [← Bool.not_eq_true] at hc
  exact hc (List.elem_iff.mpr hka)

/-- A property preserved by every step of a fold is preserved by the
fold. -/
theorem foldl_preserves {α : Type} (P : SparseMatrix → Prop)
    (g : SparseMatrix → α → SparseMatrix) (hg : ∀ m a, P m → P (g m a)) :
    ∀ (l : List α) (m0 : SparseMatrix), P m0 → P (l.foldl g m0) := by
  intro l
  induction l with
  | nil => intro m0 h0; exact h0
  | cons a l ih => intro m0 h0; exact ih (g m0 a) (hg m0 a h0)

/-- Full characterisation of a successful `add`: dimensions are copied
from the left operand, every entry of the result is the pointwise sum,
and a coordinate is stored exactly when the sum is non-zero. -/
theorem add_spec_aux (A B : SparseMatrix) (hr : A.Rows = B.Rows) (hc : A.Colu = B.Colu) :
    ∃ C, add A B = Except.ok C ∧ KeysNodup C ∧ NoZeros C ∧
      C.Rows = A.Rows ∧ C.Colu = A.Colu ∧
      (∀ i j, getElement C i j = getElement A i j + getElement B i j) ∧
      (∀ i j, hasKey C (i, j) = decide (getElement A i j + getElement B i j ≠ 0)) := by
  have hcond : ¬(A.Rows ≠ B.Rows ∨ A.Colu ≠ B.Colu) := by
    push_neg
    exact ⟨hr, hc⟩
  refine ⟨(setUnion (keysOf A) (keysOf B)).foldl
      (fun res key => setElement res key.1 key.2
        (getElement A key.1 key.2 + getElement B key.1 key.2))
      ⟨A.Rows, A.Colu, []⟩, ?_, ?_⟩
  · unfold add addM
    rw [if_neg hcond]
  · obtain ⟨hnd, hR, hC, hget, hkey⟩ :=
      foldl_set_indep (fun key => getElement A key.1 key.2 + getElement B key.1 key.2)
        (setUnion (keysOf A) (keysOf B)) ⟨A.Rows, A.Colu, []⟩
        (setUnion_nodup _ _) (by simp [KeysNodup, keysOf])
    have hzero : ∀ i j, (i, j) ∉ setUnion (keysOf A) (keysOf B) →
        getElement A i j + getElement B i j = 0 := by
      intro i j hmem
      rw [mem_setUnion] at hmem
      push_neg at hmem
      rw [getElement_eq_zero_of_not_mem A i j hmem.1,
        getElement_eq_zero_of_not_mem B i j hmem.2]
      ring
    refine ⟨hnd, ?_, hR, hC, ?_, ?_⟩
    · exact foldl_preserves NoZeros _
        (fun m p hm => NoZeros_setElement m p.1 p.2 _ hm) _ _ (by intro p hp; simp at hp)
    · intro i j
      have := hget (i, j)
      by_cases hmem : (i, j) ∈ setUnion (keysOf A) (keysOf B)
      · simpa [hmem] using this
      · rw [hzero i j hmem]
        simpa [hmem, getElement] using this
    · intro i j
      have := hkey (i, j)
      by_cases hmem : (i, j) ∈ setUnion (keysOf A) (keysOf B)
      · simpa [hmem] using this
      · rw [hzero i j hmem]
        simp only [hmem, if_false] at this
        rw [this]
        simp [hasKey, dictHasKey, dictGet]

/-- Full characterisation of a successful `subtract`, mirroring
`add_spec_aux`. -/
theorem subtract_spec_aux (A B : SparseMatrix) (hr : A.Rows = B.Rows) (hc : A.Colu = B.Colu) :
    ∃ C, subtract A B = Except.ok C ∧ KeysNodup C ∧ NoZeros C ∧
      C.Rows = A.Rows ∧ C.Colu = A.Colu ∧
      (∀ i j, getElement C i j = getElement A i j - getElement B i j) ∧
      (∀ i j, hasKey C (i, j) = decide (getElement A i j - getElement B i j ≠ 0)) := by
  have hcond : ¬(A.Rows ≠ B.Rows ∨ A.Colu ≠ B.Colu) := by
    push_neg
    exact ⟨hr, hc⟩
  refine ⟨(setUnion (keysOf A) (keysOf B)).foldl
      (fun res key => setElement res key.1 key.2
        (getElement A key.1 key.2 - getElement B key.1 key.2))
      ⟨A.Rows, A.Colu, []⟩, ?_, ?_⟩
  · unfold subtract subtractM
    rw [if_neg hcond]
  · obtain ⟨hnd, hR, hC, hget, hkey⟩ :=
      foldl_set_indep (fun key => getElement A key.1 key.2 - getElement B key.1 key.2)
        (setUnion (keysOf A) (keysOf B)) ⟨A.Rows, A.Colu, []⟩
        (setUnion_nodup _ _) (by simp [KeysNodup, keysOf])
    have hzero : ∀ i j, (i, j) ∉ setUnion (keysOf A) (keysOf B) →
        getElement A i j - getElement B i j = 0 := by
      intro i j hmem
      rw [mem_setUnion] at hmem
      push_neg at hmem
      rw [getElement_eq_zero_of_not_mem A i j hmem.1,
        getElement_eq_zero_of_not_mem B i j hmem.2]
      ring
    refine ⟨hnd, ?_, hR, hC, ?_, ?_⟩
    · exact foldl_preserves NoZeros _
        (fun m p hm => NoZeros_setElement m p.1 p.2 _ hm) _ _ (by intro p hp; simp at hp)
    · intro i j
      have := hget (i, j)
      by_cases hmem : (i, j) ∈ setUnion (keysOf A) (keysOf B)
      · simpa [hmem] using this
      · rw [hzero i j hmem]
        simpa [hmem, getElement] using this
    · intro i j
      have := hkey (i, j)
      by_cases hmem : (i, j) ∈ setUnion (keysOf A) (keysOf B)
      · simpa [hmem] using this
      · rw [hzero i j hmem]
        simp only [hmem, if_false] at this
        rw [this]
        simp [hasKey, dictHasKey, dictGet]

/-- The loop of `read_from_file` preserves freedom from stored zeros. -/
theorem readLoop_fst_NoZeros (ls : List (List Char)) (m : SparseMatrix)
    (h : NoZeros m) : NoZeros (readLoop m ls).1 := by
  induction ls generalizing m with
  | nil => exact h
  | cons l rest ih =>
    simp only [readLoop]
    split
    · exact ih m h
    · split
      · exact ih _ (NoZeros_setElement _ _ _ _ h)
      · exact h

/-- Whatever the text, the matrix `read_from_file` leaves behind stores
no zero value. -/
theorem read_from_file_fst_NoZeros (m : SparseMatrix) (t : String) :
    NoZeros (read_from_file m t).1 := by
  unfold read_from_file
  dsimp only
  split
  · intro p hp; exact absurd hp (List.not_mem_nil p)
  · split
    · intro p hp; exact absurd hp (List.not_mem_nil p)
    · split
      · intro p hp; exact absurd hp (List.not_mem_nil p)
      · split
        · intro p hp; exact absurd hp (List.not_mem_nil p)
        · split
          · intro p hp; exact absurd hp (List.not_mem_nil p)
          · split
            · intro p hp; exact absurd hp (List.not_mem_nil p)
            · exact readLoop_fst_NoZeros _ _ (fun p hp => absurd hp (List.not_mem_nil p))

/-- C1: for all sparse matrices `A` and `B` with `A.Rows = B.Rows` and
`A.Colu = B.Colu`, `add` returns a matrix with the same dimensions whose
entry at every coordinate equals `A.get + B.get` (in particular at every
coordinate of the union of the occupied coordinates); the result is
committed through the setter, so a coordinate is stored exactly when the
sum is non-zero, and a coordinate occupied in neither operand is absent. -/
theorem c1_add_correct (A B : SparseMatrix) (hr : A.Rows = B.Rows) (hc : A.Colu = B.Colu) :
    ∃ C, add A B = Except.ok C ∧ C.Rows = A.Rows ∧ C.Colu = A.Colu ∧
      (∀ i j, getElement C i j = getElement A i j + getElement B i j) ∧
      (∀ i j, hasKey C (i, j) = true ↔ getElement A i j + getElement B i j ≠ 0) ∧
      (∀ k : Nat × Nat, k ∉ keysOf A → k ∉ keysOf B → hasKey C k = false) := by
  obtain ⟨C, hok, hnd, hnz, hR, hC, hget, hkey⟩ := add_spec_aux A B hr hc
  refine ⟨C, hok, hR, hC, hget, ?_, ?_⟩
  · intro i j
    rw [hkey i j]
    simp
  · intro k hka hkb
    rw [show k = (k.1, k.2) from rfl, hkey k.1 k.2]
    rw [getElement_eq_zero_of_not_mem A k.1 k.2 (by simpa using hka),
      getElement_eq_zero_of_not_mem B k.1 k.2 (by simpa using hkb)]
    simp

/-- Witness for C1 at a concrete pair of 1 × 2 matrices. -/
theorem c1_add_correct_witness :
    ∃ C, add ⟨1, 2, [((0, 0), 3)]⟩ ⟨1, 2, [((0, 1), 4)]⟩ = Except.ok C := by
  obtain ⟨C, hC, -⟩ := c1_add_correct ⟨1, 2, [((0, 0), 3)]⟩ ⟨1, 2, [((0, 1), 4)]⟩ rfl rfl
  exact ⟨C, hC⟩

/-- C4: `add`/`subtract` fail with the dimension-mismatch error exactly
when rows or columns differ, and `multiply` exactly when `A.Colu` differs
from `B.Rows`; with compatible dimensions no such error is raised. -/
theorem c4_dimension_mismatch (A B : SparseMatrix) :
    (add A B = Except.error MatrixError.dimensionMismatch ↔
      (A.Rows ≠ B.Rows ∨ A.Colu ≠ B.Colu)) ∧
    (subtract A B = Except.error MatrixError.dimensionMismatch ↔
      (A.Rows ≠ B.Rows ∨ A.Colu ≠ B.Colu)) ∧
    (multiply A B = Except.error MatrixError.dimensionMismatch ↔ A.Colu ≠ B.Rows) := by
  refine ⟨?_, ?_, ?_⟩
  · by_cases h : A.Rows ≠ B.Rows ∨ A.Colu ≠ B.Colu
    · unfold add addM
      rw [if_pos h]
      simp [h]
    · unfold add addM
      rw [if_neg h]
      simp [h]
  · by_cases h : A.Rows ≠ B.Rows ∨ A.Colu ≠ B.Colu
    · unfold subtract subtractM
      rw [if_pos h]
      simp [h]
    · unfold subtract subtractM
      rw [if_neg h]
      simp [h]
  · by_cases h : A.Colu ≠ B.Rows
    · unfold multiply multiplyM
      rw [if_pos h]
      simp [h]
    · unfold multiply multiplyM
      rw [if_neg h]
      simp [h]

/-- C7: with matching dimensions, `subtract (add A B) B` is entrywise
equal to `A`, and `add A B` is entrywise equal to `add B A`. -/
theorem c7_add_subtract_roundtrip (A B : SparseMatrix)
    (hr : A.Rows = B.Rows) (hc : A.Colu = B.Colu) :
    ∃ C D E, add A B = Except.ok C ∧ subtract C B = Except.ok D ∧
      add B A = Except.ok E ∧
      (∀ i j, getElement D i j = getElement A i j) ∧
      (∀ i j, getElement C i j = getElement E i j) := by
  obtain ⟨C, hC, -, -, hCR, hCC, hCget, -⟩ := add_spec_aux A B hr hc
  obtain ⟨D, hD, -, -, -, -, hDget, -⟩ :=
    subtract_spec_aux C B (hCR.trans hr) (hCC.trans hc)
  obtain ⟨E, hE, -, -, -, -, hEget, -⟩ := add_spec_aux B A hr.symm hc.symm
  refine ⟨C, D, E, hC, hD, hE, ?_, ?_⟩
  · intro i j
    rw [hDget, hCget]
    ring
  · intro i j
    rw [hCget, hEget]
    ring

/-- Witness for C7 at a concrete pair of 2 × 2 matrices. -/
theorem c7_add_subtract_roundtrip_witness :
    ∃ C D E, add ⟨2, 2, [((0, 0), 1), ((1, 1), 2)]⟩ ⟨2, 2, [((0, 0), 3), ((0, 1), 4)]⟩ = Except.ok C ∧
      subtract C ⟨2, 2, [((0, 0), 3), ((0, 1), 4)]⟩ = Except.ok D ∧
      add ⟨2, 2, [((0, 0), 3), ((0, 1), 4)]⟩ ⟨2, 2, [((0, 0), 1), ((1, 1), 2)]⟩ = Except.ok E := by
  obtain ⟨C, D, E, h1, h2, h3, -, -⟩ :=
    c7_add_subtract_roundtrip ⟨2, 2, [((0, 0), 1), ((1, 1), 2)]⟩
      ⟨2, 2, [((0, 0), 3), ((0, 1), 4)]⟩ rfl rfl
  exact ⟨C, D, E, h1, h2, h3⟩

/-- C9: with compatible dimensions, each operation leaves both operands
exactly as they were and succeeds with a freshly built result matrix. -/
theorem c9_operands_unchanged (A B : SparseMatrix)
    (hr : A.Rows = B.Rows) (hc : A.Colu = B.Colu) (hm : A.Colu = B.Rows) :
    (addM A B).1 = A ∧ (addM A B).2.1 = B ∧ (∃ C, (addM A B).2.2 = Except.ok C) ∧
    (subtractM A B).1 = A ∧ (subtractM A B).2.1 = B ∧
      (∃ C, (subtractM A B).2.2 = Except.ok C) ∧
    (multiplyM A B).1 = A ∧ (multiplyM A B).2.1 = B ∧
      (∃ C, (multiplyM A B).2.2 = Except.ok C) := by
  have h1 : ¬(A.Rows ≠ B.Rows ∨ A.Colu ≠ B.Colu) := by
    push_neg
    exact ⟨hr, hc⟩
  have h2 : ¬(A.Colu ≠ B.Rows) := by
    push_neg
    exact hm
  unfold addM subtractM multiplyM
  rw [if_neg h1, if_neg h1, if_neg h2]
  exact ⟨rfl, rfl, ⟨_, rfl⟩, rfl, rfl, ⟨_, rfl⟩, rfl, rfl, ⟨_, rfl⟩⟩

/-- Witness for C9 at a concrete pair of 1 × 1 matrices. -/
theorem c9_operands_unchanged_witness :
    (addM ⟨1, 1, [((0, 0), 2)]⟩ ⟨1, 1, [((0, 0), 5)]⟩).1 = ⟨1, 1, [((0, 0), 2)]⟩ ∧
    (multiplyM ⟨1, 1, [((0, 0), 2)]⟩ ⟨1, 1, [((0, 0), 5)]⟩).2.1 = ⟨1, 1, [((0, 0), 5)]⟩ := by
  obtain ⟨ha, -, -, -, -, -, -, hb, -⟩ :=
    c9_operands_unchanged ⟨1, 1, [((0, 0), 2)]⟩ ⟨1, 1, [((0, 0), 5)]⟩ rfl rfl rfl
  exact ⟨ha, hb⟩

/-- C8: no stored entry is ever zero: the empty matrix, the setter, the
parser, and the three arithmetic operations all produce only non-zero
stored values (the setter removes a coordinate set to zero). -/
theorem c8_no_zero_entries :
    NoZeros emptyMatrix ∧
    (∀ m r c v, NoZeros m → NoZeros (setElement m r c v)) ∧
    (∀ m t, NoZeros (read_from_file m t).1) ∧
    (∀ A B C, add A B = Except.ok C → NoZeros C) ∧
    (∀ A B C, subtract A B = Except.ok C → NoZeros C) ∧
    (∀ A B C, multiply A B = Except.ok C → NoZeros C) := by
  refine ⟨?_, NoZeros_setElement, read_from_file_fst_NoZeros, ?_, ?_, ?_⟩
  · intro p hp
    exact absurd hp (List.not_mem_nil p)
  · intro A B C h
    unfold add addM at h
    by_cases hcond : A.Rows ≠ B.Rows ∨ A.Colu ≠ B.Colu
    · rw [if_pos hcond] at h
      exact absurd h (by simp)
    · rw [if_neg hcond] at h
      simp only [Except.ok.injEq] at h
      subst h
      exact foldl_preserves NoZeros _
        (fun m p hm => NoZeros_setElement m p.1 p.2 _ hm) _ _
        (fun p hp => absurd hp (List.not_mem_nil p))
  · intro A B C h
    unfold subtract subtractM at h
    by_cases hcond : A.Rows ≠ B.Rows ∨ A.Colu ≠ B.Colu
    · rw [if_pos hcond] at h
      exact absurd h (by simp)
    · rw [if_neg hcond] at h
      simp only [Except.ok.injEq] at h
      subst h
      exact foldl_preserves NoZeros _
        (fun m p hm => NoZeros_setElement m p.1 p.2 _ hm) _ _
        (fun p hp => absurd hp (List.not_mem_nil p))
  · intro A B C h
    unfold multiply multiplyM at h
    by_cases hcond : A.Colu ≠ B.Rows
    · rw [if_pos hcond] at h
      exact absurd h (by simp)
    · rw [if_neg hcond] at h
      simp only [Except.ok.injEq] at h
      subst h
      refine foldl_preserves NoZeros _ ?_ _ _
        (fun p hp => absurd hp (List.not_mem_nil p))
      intro m ik hm
      exact foldl_preserves NoZeros _
        (fun m' j hm' => NoZeros_setElement m' ik.1 j _ hm') _ _ hm

/-- Witness for C8: the setter dropping a zero and a concrete `add`
producing a cancelled (hence unstored) entry. -/
theorem c8_no_zero_entries_witness :
    NoZeros (setElement ⟨1, 1, [((0, 0), 3)]⟩ 0 0 0) ∧
    NoZeros (⟨1, 1, []⟩ : SparseMatrix) :=
  ⟨c8_no_zero_entries.2.1 ⟨1, 1, [((0, 0), 3)]⟩ 0 0 0 (by decide),
   c8_no_zero_entries.2.2.2.1 ⟨1, 1, [((0, 0), 2)]⟩ ⟨1, 1, [((0, 0), -2)]⟩ ⟨1, 1, []⟩ (by rfl)⟩

/-! ### The `multiply` loops -/

/-- Effect of the inner `for j in range(n)` loop of `multiply` for one
occupied coordinate `(i, k)` of the left operand: row `i` of the
accumulator gains `A(i,k) * B(k,j)` at every column `j < n`, everything
else is untouched, and a touched coordinate stays stored exactly when
its new value is non-zero. -/
theorem multiply_inner_spec (A B : SparseMatrix) (i k n : Nat) (m0 : SparseMatrix)
    (hm0 : KeysNodup m0) :
    KeysNodup ((List.range n).foldl
      (fun res j => setElement res i j
        (getElement res i j + getElement A i k * getElement B k j)) m0) ∧
    ((List.range n).foldl
      (fun res j => setElement res i j
        (getElement res i j + getElement A i k * getElement B k j)) m0).Rows = m0.Rows ∧
    ((List.range n).foldl
      (fun res j => setElement res i j
        (getElement res i j + getElement A i k * getElement B k j)) m0).Colu = m0.Colu ∧
    (∀ i' j', getElement ((List.range n).foldl
        (fun res j => setElement res i j
          (getElement res i j + getElement A i k * getElement B k j)) m0) i' j'
      = getElement m0 i' j' +
        (if i' = i ∧ j' < n then getElement A i k * getElement B k j' else 0)) ∧
    (∀ i' j', hasKey ((List.range n).foldl
        (fun res j => setElement res i j
          (getElement res i j + getElement A i k * getElement B k j)) m0) (i', j')
      = if i' = i ∧ j' < n then
          decide (getElement m0 i' j' + getElement A i k * getElement B k j' ≠ 0)
        else hasKey m0 (i', j')) := by
  induction n with
  | zero => simp [hm0]
  | succ n ih =>
    obtain ⟨ihnd, ihR, ihC, ihget, ihkey⟩ := ih
    rw [List.range_succ]
    simp only [List.foldl_append, List.foldl_cons, List.foldl_nil]
    refine ⟨KeysNodup_setElement _ _ _ _ ihnd, ?_, ?_, ?_, ?_⟩
    · rw [setElement_Rows]
      exact ihR
    · rw [setElement_Colu]
      exact ihC
    · intro i' j'
      by_cases hi : i' = i
      · subst hi
        by_cases hj : j' = n
        · subst hj
          rw [getElement_setElement_self _ _ _ _ ihnd, ihget i' j']
          have hnot : ¬(i' = i' ∧ j' < j') := by omega
          have hyes : i' = i' ∧ j' < j' + 1 := by omega
          rw [if_neg hnot, if_pos hyes]
          ring
        · rw [getElement_setElement_other _ _ _ _ _ _ (by simp [hj]), ihget i' j']
          congr 1
          by_cases hj2 : j' < n
          · rw [if_pos ⟨rfl, hj2⟩, if_pos ⟨rfl, by omega⟩]
          · rw [if_neg (by omega), if_neg (by omega)]
      · rw [getElement_setElement_other _ _ _ _ _ _ (by simp [hi]), ihget i' j']
        congr 1
        rw [if_neg (by tauto), if_neg (by tauto)]
    · intro i' j'
      by_cases hi : i' = i
      · subst hi
        by_cases hj : j' = n
        · subst hj
          rw [hasKey_setElement_self _ _ _ _ ihnd, ihget i' j']
          have hnot : ¬(i' = i' ∧ j' < j') := by omega
          have hyes : i' = i' ∧ j' < j' + 1 := by omega
          rw [if_neg hnot, if_pos hyes]
          ring_nf
        · rw [hasKey_setElement_other _ _ _ _ _ (by simp [hj]), ihkey i' j']
          by_cases hj2 : j' < n
          · rw [if_pos ⟨rfl, hj2⟩, if_pos ⟨rfl, by omega⟩]
          · rw [if_neg (by omega), if_neg (by omega)]
      · rw [hasKey_setElement_other _ _ _ _ _ (by simp [hi]), ihkey i' j']
        rw [if_neg (by tauto), if_neg (by tauto)]

/-- If no processed key lies in row `i`, row `i` receives no
contribution. -/
theorem rowContrib_eq_zero (A B : SparseMatrix) (ks : List (Nat × Nat)) (i j : Nat)
    (h : ∀ p ∈ ks, p.1 ≠ i) : rowContrib A B ks i j = 0 := by
  unfold rowContrib
  apply List.sum_eq_zero
  intro x hx
  rcases List.mem_map.mp hx with ⟨p, hp, hpx⟩
  rw [← hpx, if_neg (h p hp)]

/-- Effect of the outer loop of `multiply` over the processed occupied
coordinates `ks` of the left operand: each entry `(i, j)` with `j < n`
accumulates `rowContrib`, columns `j ≥ n` are untouched, and a
coordinate of a touched row within range is stored exactly when its
accumulated value is non-zero. -/
theorem multiply_outer_spec (A B : SparseMatrix) (n : Nat) (ks : List (Nat × Nat))
    (m0 : SparseMatrix) (hm0 : KeysNodup m0) :
    KeysNodup (ks.foldl
      (fun res ik => (List.range n).foldl
        (fun res j => setElement res ik.1 j
          (getElement res ik.1 j + getElement A ik.1 ik.2 * getElement B ik.2 j)) res) m0) ∧
    (ks.foldl
      (fun res ik => (List.range n).foldl
        (fun res j => setElement res ik.1 j
          (getElement res ik.1 j + getElement A ik.1 ik.2 * getElement B ik.2 j)) res) m0).Rows
      = m0.Rows ∧
    (ks.foldl
      (fun res ik => (List.range n).foldl
        (fun res j => setElement res ik.1 j
          (getElement res ik.1 j + getElement A ik.1 ik.2 * getElement B ik.2 j)) res) m0).Colu
      = m0.Colu ∧
    (∀ i j, getElement (ks.foldl
        (fun res ik => (List.range n).foldl
          (fun res j => setElement res ik.1 j
            (getElement res ik.1 j + getElement A ik.1 ik.2 * getElement B ik.2 j)) res) m0) i j
      = getElement m0 i j + (if j < n then rowContrib A B ks i j else 0)) ∧
    (∀ i j, hasKey (ks.foldl
        (fun res ik => (List.range n).foldl
          (fun res j => setElement res ik.1 j
            (getElement res ik.1 j + getElement A ik.1 ik.2 * getElement B ik.2 j)) res) m0) (i, j)
      = if j < n ∧ (∃ p ∈ ks, p.1 = i) then
          decide (getElement m0 i j + rowContrib A B ks i j ≠ 0)
        else hasKey m0 (i, j)) := by
  induction ks generalizing m0 with
  | nil =>
    refine ⟨hm0, rfl, rfl, ?_, ?_⟩
    · intro i j
      simp [rowContrib]
    · intro i j
      simp
  | cons p ks ih =>
    obtain ⟨ind, iR, iC, iget, ikey⟩ := multiply_inner_spec A B p.1 p.2 n m0 hm0
    obtain ⟨ond, oR, oC, oget, okey⟩ := ih _ ind
    simp only [List.foldl_cons]
    refine ⟨ond, oR.trans iR, oC.trans iC, ?_, ?_⟩
    · intro i j
      rw [oget i j, iget i j]
      by_cases hj : j < n
      · rw [if_pos hj, if_pos hj]
        have hcons : rowContrib A B (p :: ks) i j
            = (if p.1 = i then getElement A p.1 p.2 * getElement B p.2 j else 0)
              + rowContrib A B ks i j := by
          simp [rowContrib]
        rw [hcons]
        by_cases hi : i = p.1
        · rw [if_pos ⟨hi, hj⟩, if_pos hi.symm, hi]
          ring
        · rw [if_neg (by tauto), if_neg (fun h => hi h.symm)]
          ring
      · rw [if_neg hj, if_neg hj, if_neg (by tauto)]
        ring
    · intro i j
      rw [okey i j]
      have hcons : rowContrib A B (p :: ks) i j
          = (if p.1 = i then getElement A p.1 p.2 * getElement B p.2 j else 0)
            + rowContrib A B ks i j := by
        simp [rowContrib]
      by_cases hj : j < n
      · by_cases htouch : ∃ q ∈ ks, q.1 = i
        · obtain ⟨q, hq, hq2⟩ := htouch
          rw [if_pos ⟨hj, q, hq, hq2⟩,
            if_pos ⟨hj, q, List.mem_cons_of_mem p hq, hq2⟩]
          have hXY : getElement ((List.range n).foldl
              (fun res j => setElement res p.1 j
                (getElement res p.1 j + getElement A p.1 p.2 * getElement B p.2 j)) m0) i j
                + rowContrib A B ks i j
              = getElement m0 i j + rowContrib A B (p :: ks) i j := by
            rw [iget i j, hcons]
            by_cases hi : i = p.1
            · rw [if_pos ⟨hi, hj⟩, if_pos hi.symm]
              ring
            · rw [if_neg (by tauto), if_neg (fun h => hi h.symm)]
              ring
          rw [hXY]
        · rw [if_neg (fun h => htouch h.2), ikey i j]
          by_cases hi : i = p.1
          · rw [if_pos ⟨hi, hj⟩,
              if_pos ⟨hj, p, List.mem_cons_self p ks, hi.symm⟩, hcons]
            have hzero : rowContrib A B ks i j = 0 :=
              rowContrib_eq_zero A B ks i j (fun q hq hq2 => htouch ⟨q, hq, hq2⟩)
            rw [hzero, if_pos hi.symm, hi]
            ring_nf
          · rw [if_neg (by tauto), if_neg ?_]
            rintro ⟨-, q, hq, hq2⟩
            rcases List.mem_cons.mp hq with h' | h'
            · exact hi (h' ▸ hq2).symm
            · exact htouch ⟨q, h', hq2⟩
      · rw [if_neg (fun h => hj h.1), ikey i j, if_neg (by tauto),
          if_neg (fun h => hj h.1)]

/-- For a left operand with distinct, in-bounds keys, the contribution of
all its occupied coordinates to entry `(i, j)` is the textbook inner
product `∑ k < A.Colu, A(i,k) * B(k,j)`. -/
theorem rowContrib_eq_finset_sum (A B : SparseMatrix) (i j : Nat)
    (hA : KeysNodup A)
    (hbound : ∀ p ∈ keysOf A, (p.2 : Int) < A.Colu) :
    rowContrib A B (keysOf A) i j
      = ∑ k ∈ Finset.range A.Colu.toNat, getElement A i k * getElement B k j := by
  have hfilter : rowContrib A B (keysOf A) i j
      = (((keysOf A).filter (fun p => decide (p.1 = i))).map
          (fun p => getElement A p.1 p.2 * getElement B p.2 j)).sum := by
    unfold rowContrib
    induction keysOf A with
    | nil => rfl
    | cons p ks ih => by_cases h : p.1 = i <;> simp [h, ih]
  have hmap : (((keysOf A).filter (fun p => decide (p.1 = i))).map
        (fun p => getElement A p.1 p.2 * getElement B p.2 j))
      = (((keysOf A).filter (fun p => decide (p.1 = i))).map Prod.snd).map
          (fun k => getElement A i k * getElement B k j) := by
    rw [List.map_map]
    apply List.map_congr_left
    intro p hp
    rw [List.mem_filter] at hp
    have : p.1 = i := by simpa using hp.2
    simp [this]
  have hnodup : (((keysOf A).filter (fun p => decide (p.1 = i))).map Prod.snd).Nodup := by
    refine List.Nodup.map_on ?_ (hA.sublist (List.filter_sublist _))
    intro x hx y hy hxy
    rw [List.mem_filter] at hx hy
    exact Prod.ext ((by simpa using hx.2 : x.1 = i).trans
      (by simpa using hy.2 : y.1 = i).symm) hxy
  have hmem : ∀ k, k ∈ ((keysOf A).filter (fun p => decide (p.1 = i))).map Prod.snd
      ↔ (i, k) ∈ keysOf A := by
    intro k
    constructor
    · intro hk
      rcases List.mem_map.mp hk with ⟨p, hp, hpk⟩
      rw [List.mem_filter] at hp
      have h1 : p.1 = i := by simpa using hp.2
      have : p = (i, k) := Prod.ext h1 hpk
      exact this ▸ hp.1
    · intro hk
      exact List.mem_map.mpr ⟨(i, k), List.mem_filter.mpr ⟨hk, by simp⟩, rfl⟩
  rw [hfilter, hmap,
    ← List.sum_toFinset (fun k => getElement A i k * getElement B k j) hnodup]
  apply Finset.sum_subset
  · intro k hk
    rw [List.mem_toFinset, hmem] at hk
    have := hbound (i, k) hk
    simp only [Finset.mem_range]
    omega
  · intro k hk hknot
    rw [List.mem_toFinset, hmem] at hknot
    rw [getElement_eq_zero_of_not_mem A i k hknot]
    ring

/-- C2: for matrices with `A.Colu = B.Rows` whose stored keys are
distinct and in bounds (the data-model invariants of §3 of the spec),
`multiply` succeeds with dimensions `A.Rows × B.Colu`, every entry is
the inner product `∑ k, A(i,k) * B(k,j)`, and — because every total is
committed through the setter after reading the accumulated partial
result back through the getter — a coordinate is stored exactly when
that inner product is non-zero. -/
theorem c2_multiply_correct (A B : SparseMatrix) (hm : A.Colu = B.Rows)
    (hA : KeysNodup A)
    (hAbound : ∀ p ∈ keysOf A, (p.2 : Int) < A.Colu)
    (hBbound : ∀ p ∈ keysOf B, (p.2 : Int) < B.Colu) :
    ∃ C, multiply A B = Except.ok C ∧ C.Rows = A.Rows ∧ C.Colu = B.Colu ∧
      (∀ i j, getElement C i j
        = ∑ k ∈ Finset.range A.Colu.toNat, getElement A i k * getElement B k j) ∧
      (∀ i j, hasKey C (i, j) = true ↔
        (∑ k ∈ Finset.range A.Colu.toNat, getElement A i k * getElement B k j) ≠ 0) := by
  have hcond : ¬(A.Colu ≠ B.Rows) := by
    push_neg
    exact hm
  have hSzero : ∀ i j, ¬ j < B.Colu.toNat →
      (∑ k ∈ Finset.range A.Colu.toNat, getElement A i k * getElement B k j) = 0 := by
    intro i j hj
    apply Finset.sum_eq_zero
    intro k hk
    have hB : (k, j) ∉ keysOf B := by
      intro hmem
      have := hBbound (k, j) hmem
      simp only at this
      omega
    rw [getElement_eq_zero_of_not_mem B k j hB]
    ring
  refine ⟨(keysOf A).foldl
      (fun res ik => (List.range B.Colu.toNat).foldl
        (fun res j => setElement res ik.1 j
          (getElement res ik.1 j + getElement A ik.1 ik.2 * getElement B ik.2 j)) res)
      ⟨A.Rows, B.Colu, []⟩, ?_, ?_⟩
  · unfold multiply multiplyM
    rw [if_neg hcond]
  · obtain ⟨ond, oR, oC, oget, okey⟩ :=
      multiply_outer_spec A B B.Colu.toNat (keysOf A) ⟨A.Rows, B.Colu, []⟩
        (by simp [KeysNodup, keysOf])
    have hm0get : ∀ i j, getElement (⟨A.Rows, B.Colu, []⟩ : SparseMatrix) i j = 0 := by
      intro i j
      simp [getElement, dictGet]
    have hm0key : ∀ i j, hasKey (⟨A.Rows, B.Colu, []⟩ : SparseMatrix) (i, j) = false := by
      intro i j
      simp [hasKey, dictHasKey, dictGet]
    refine ⟨oR, oC, ?_, ?_⟩
    · intro i j
      rw [oget i j, hm0get i j]
      by_cases hj : j < B.Colu.toNat
      · rw [if_pos hj, rowContrib_eq_finset_sum A B i j hA hAbound]
        ring
      · rw [if_neg hj, hSzero i j hj]
        ring
    · intro i j
      rw [okey i j]
      by_cases hj : j < B.Colu.toNat
      · by_cases htouch : ∃ p ∈ keysOf A, p.1 = i
        · rw [if_pos ⟨hj, htouch⟩, hm0get i j]
          rw [show (0 : Int) + rowContrib A B (keysOf A) i j
              = rowContrib A B (keysOf A) i j from by ring,
            rowContrib_eq_finset_sum A B i j hA hAbound]
          simp
        · rw [if_neg (fun h => htouch h.2), hm0key i j]
          have hrc : rowContrib A B (keysOf A) i j = 0 :=
            rowContrib_eq_zero A B (keysOf A) i j
              (fun q hq hq2 => htouch ⟨q, hq, hq2⟩)
          rw [← rowContrib_eq_finset_sum A B i j hA hAbound, hrc]
          simp
      · rw [if_neg (fun h => hj h.1), hm0key i j, hSzero i j hj]
        simp

/-- Witness for C2 at the concrete 2 × 2 matrices of the spec's
scenario. -/
theorem c2_multiply_correct_witness :
    ∃ C, multiply ⟨2, 2, [((0, 0), 1), ((1, 1), 2)]⟩ ⟨2, 2, [((0, 0), 3), ((0, 1), 4)]⟩
      = Except.ok C := by
  obtain ⟨C, hC, -⟩ := c2_multiply_correct ⟨2, 2, [((0, 0), 1), ((1, 1), 2)]⟩
    ⟨2, 2, [((0, 0), 3), ((0, 1), 4)]⟩ rfl (by decide) (by decide) (by decide)
  exact ⟨C, hC⟩

/-- C3, counterexample to the multiply part: on the spec's concrete
scenario the product of `A = [[1,0],[0,2]]` and `B = [[3,4],[0,0]]` has
exactly the entries `(0,0,3)` and `(0,1,4)`; its `(1,1)` entry is `0`
and unstored, not `8`, so the claimed entry set
`(0,0,3),(0,1,4),(1,1,8)` is wrong. -/
theorem c3_scenario_counterexample :
    multiply (parseText "rows=2\ncols=2\n(0,0,1)\n(1,1,2)").1
        (parseText "rows=2\ncols=2\n(0,0,3)\n(0,1,4)").1
      = Except.ok ⟨2, 2, [((0, 0), 3), ((0, 1), 4)]⟩ ∧
    getElement ⟨2, 2, [((0, 0), 3), ((0, 1), 4)]⟩ 1 1 = 0 ∧
    hasKey ⟨2, 2, [((0, 0), 3), ((0, 1), 4)]⟩ (1, 1) = false ∧
    ¬ List.Perm ([((0, 0), 3), ((0, 1), 4)] : List ((Nat × Nat) × Int))
        [((0, 0), 3), ((0, 1), 4), ((1, 1), 8)] :=
  ⟨rfl, rfl, rfl, by decide⟩

/-- C3 (amended): on the spec's concrete scenario, `add(A, B)` has
exactly the entries `(0,0,4), (0,1,4), (1,1,2)` and `multiply(A, B)` has
exactly the entries `(0,0,3), (0,1,4)`. -/
theorem c3_scenario :
    (parseText "rows=2\ncols=2\n(0,0,1)\n(1,1,2)").2 = none ∧
    (parseText "rows=2\ncols=2\n(0,0,3)\n(0,1,4)").2 = none ∧
    add (parseText "rows=2\ncols=2\n(0,0,1)\n(1,1,2)").1
        (parseText "rows=2\ncols=2\n(0,0,3)\n(0,1,4)").1
      = Except.ok ⟨2, 2, [((0, 0), 4), ((1, 1), 2), ((0, 1), 4)]⟩ ∧
    List.Perm ([((0, 0), 4), ((1, 1), 2), ((0, 1), 4)] : List ((Nat × Nat) × Int))
        [((0, 0), 4), ((0, 1), 4), ((1, 1), 2)] ∧
    multiply (parseText "rows=2\ncols=2\n(0,0,1)\n(1,1,2)").1
        (parseText "rows=2\ncols=2\n(0,0,3)\n(0,1,4)").1
      = Except.ok ⟨2, 2, [((0, 0), 3), ((0, 1), 4)]⟩ :=
  ⟨rfl, rfl, rfl, by decide, rfl⟩

/-! ### Parse-failure characterisation -/

/-- The triple loop either succeeds or reports the format error. -/
theorem readLoop_snd_kinds (ls : List (List Char)) (m : SparseMatrix) :
    (readLoop m ls).2 = none ∨ (readLoop m ls).2 = some MatrixError.formatError := by
  induction ls generalizing m with
  | nil => exact Or.inl rfl
  | cons l rest ih =>
    simp only [readLoop]
    split
    · exact ih m
    · split
      · exact ih _
      · exact Or.inr rfl

/-- A non-blank line that the pattern does not match anywhere in the
list makes the triple loop fail. -/
theorem readLoop_snd_err_of_bad (ls : List (List Char)) (m : SparseMatrix)
    (h : ∃ l ∈ ls, pyStripL l ≠ [] ∧ tripleMatch (pyStripL l) = none) :
    (readLoop m ls).2 = some MatrixError.formatError := by
  induction ls generalizing m with
  | nil => exact absurd h (by simp)
  | cons l rest ih =>
    simp only [readLoop]
    split
    · rename_i hblank
      refine ih m ?_
      rcases h with ⟨l', hl', hne, hnm⟩
      rcases List.mem_cons.mp hl' with h' | h'
      · subst h'
        exact absurd (List.isEmpty_iff.mp hblank) hne
      · exact ⟨l', h', hne, hnm⟩
    · split
      · rename_i hblank rcv hmatch
        refine ih _ ?_
        rcases h with ⟨l', hl', hne, hnm⟩
        rcases List.mem_cons.mp hl' with h' | h'
        · subst h'
          rw [hmatch] at hnm
          exact absurd hnm (by simp)
        · exact ⟨l', h', hne, hnm⟩
      · rfl

/-- If every line is blank or pattern-matched, the triple loop
succeeds. -/
theorem readLoop_snd_none_of_good (ls : List (List Char)) (m : SparseMatrix)
    (h : ∀ l ∈ ls, pyStripL l = [] ∨ (tripleMatch (pyStripL l)).isSome) :
    (readLoop m ls).2 = none := by
  induction ls generalizing m with
  | nil => rfl
  | cons l rest ih =>
    simp only [readLoop]
    split
    · exact ih m (fun l' hl' => h l' (List.mem_cons_of_mem l hl'))
    · split
      · exact ih _ (fun l' hl' => h l' (List.mem_cons_of_mem l hl'))
      · rename_i hblank x hmatch
        rcases h l (List.mem_cons_self l rest) with h' | h'
        · exact absurd (List.isEmpty_iff.mpr h') hblank
        · rw [hmatch] at h'
          exact absurd h' (by simp)

/-- C5 (amended): parsing fails with the single `formatError` exactly
when extracting an integer after the first `'='` of line 0 or line 1
fails (missing line, no `'='`, or unparseable integer), or some
non-blank line after the two header lines is not matched by the
(prefix, not fully anchored) triple pattern; blank lines are skipped.
A first line of any `key=integer` shape is accepted even though it is
not a `rows=` header, and trailing text after a matched triple prefix
is accepted. -/
theorem c5_parse_failure (t : String) :
    ((parseText t).2 = none ∨ (parseText t).2 = some MatrixError.formatError) ∧
    ((pyReadlines t.toList)[0]?.bind headerVal = none →
      (parseText t).2 = some MatrixError.formatError) ∧
    ((pyReadlines t.toList)[1]?.bind headerVal = none →
      (parseText t).2 = some MatrixError.formatError) ∧
    ((∃ l ∈ (pyReadlines t.toList).drop 2,
        pyStripL l ≠ [] ∧ tripleMatch (pyStripL l) = none) →
      (parseText t).2 = some MatrixError.formatError) ∧
    ((pyReadlines t.toList)[0]?.bind headerVal ≠ none →
      (pyReadlines t.toList)[1]?.bind headerVal ≠ none →
      (∀ l ∈ (pyReadlines t.toList).drop 2,
        pyStripL l = [] ∨ (tripleMatch (pyStripL l)).isSome) →
      (parseText t).2 = none) := by
  unfold parseText read_from_file
  dsimp only
  rcases h0 : (pyReadlines t.toList)[0]? with _ | l0
  · have h1 : (pyReadlines t.toList)[1]? = none := by
      rcases hl : pyReadlines t.toList with _ | ⟨a, as⟩
      · rfl
      · rw [hl] at h0
        simp at h0
    simp only [h0, h1, Option.none_bind]
    simp
  · simp only [h0, Option.some_bind]
    rcases h0s : (splitEq l0)[1]? with _ | s0
    · simp only [headerVal, h0s]
      simp
    · simp only [headerVal, h0s]
      rcases h0i : pyInt s0 with _ | r
      · simp only [h0i]
        simp
      · simp only [h0i]
        rcases h1 : (pyReadlines t.toList)[1]? with _ | l1
        · simp only [h1, Option.none_bind]
          simp
        · simp only [h1, Option.some_bind]
          rcases h1s : (splitEq l1)[1]? with _ | s1
          · simp only [headerVal, h1s]
            simp
          · simp only [headerVal, h1s]
            rcases h1i : pyInt s1 with _ | c
            · simp only [h1i]
              simp
            · simp only [h1i]
              refine ⟨readLoop_snd_kinds _ _, ?_, ?_, ?_, ?_⟩
              · intro h
                exact absurd h (by simp)
              · intro h
                exact absurd h (by simp)
              · intro hex
                exact readLoop_snd_err_of_bad _ _ hex
              · intro _ _ hall
                exact readLoop_snd_none_of_good _ _ hall

/-- Witness for C5: a text with an unparseable first header fails with
the format error, and a well-formed text parses. -/
theorem c5_parse_failure_witness :
    (parseText "garbage").2 = some MatrixError.formatError ∧
    (parseText "rows=1\ncols=1\n\n(0, 0, 7)").2 = none := by
  constructor
  · exact (c5_parse_failure "garbage").2.1 (by rfl)
  · exact (c5_parse_failure "rows=1\ncols=1\n\n(0, 0, 7)").2.2.2.2
      (by decide) (by decide) (by decide)

/-- C5, counterexample: the text `cols=2\ncols=2\n(0,0,1)extra` has no
`rows=` header and its third line does not match the strict triple
pattern (there is trailing text after the parenthesis), yet parsing
SUCCEEDS, storing the triple and taking the row count from the first
`cols=` line — the claim that such texts fail with `FormatError` is
false. -/
theorem c5_counterexample :
    tripleMatchStrict ("(0,0,1)extra".toList) = none ∧
    tripleMatch ("(0,0,1)extra".toList) = some (0, 0, 1) ∧
    (parseText "cols=2\ncols=2\n(0,0,1)extra").2 = none ∧
    (parseText "cols=2\ncols=2\n(0,0,1)extra").1 = ⟨2, 2, [((0, 0), 1)]⟩ :=
  ⟨rfl, rfl, rfl, rfl⟩

/-! ### Text lemmas: stripping, splitting, line structure -/

theorem pyStripL_append_trailing (l : List Char) (c : Char) (hc : isPySpace c = true) :
    pyStripL (l ++ [c]) = pyStripL l := by
  unfold pyStripL
  rw [List.dropWhile_append]
  by_cases h : (l.dropWhile isPySpace).isEmpty
  · rw [if_pos h]
    rw [List.isEmpty_iff] at h
    rw [h]
    simp [List.dropWhile, hc]
  · rw [if_neg h]
    rw [List.reverse_append]
    simp only [List.reverse_cons, List.reverse_nil, List.nil_append, List.singleton_append,
      List.dropWhile_cons]
    rw [if_pos hc]

theorem pyInt_append_newline (l : List Char) : pyInt (l ++ ['\n']) = pyInt l := by
  unfold pyInt
  rw [pyStripL_append_trailing l '\n' rfl]

theorem splitEq_ne_nil (l : List Char) : splitEq l ≠ [] := by
  induction l with
  | nil => simp [splitEq]
  | cons c cs ih =>
    simp only [splitEq]
    split
    · simp
    · split
      · simp
      · simp

theorem splitEq_no_eq (l : List Char) (h : '=' ∉ l) : splitEq l = [l] := by
  induction l with
  | nil => rfl
  | cons c cs ih =>
    simp only [List.mem_cons] at h
    push_neg at h
    simp only [splitEq, if_neg (fun hc : c = '=' => h.1 hc.symm)]
    rw [ih h.2]

theorem splitEq_append_single (l : List Char) (c : Char) (hc : c ≠ '=') :
    ∃ S s, splitEq l = S ++ [s] ∧ splitEq (l ++ [c]) = S ++ [s ++ [c]] := by
  induction l with
  | nil =>
    refine ⟨[], [], rfl, ?_⟩
    simp [splitEq, hc]
  | cons a l ih =>
    obtain ⟨S, s, h1, h2⟩ := ih
    by_cases ha : a = '='
    · subst ha
      refine ⟨[] :: S, s, ?_, ?_⟩
      · show ([] : List Char) :: splitEq l = ([] :: S) ++ [s]
        rw [h1]
        rfl
      · show ([] : List Char) :: splitEq (l ++ [c]) = ([] :: S) ++ [s ++ [c]]
        rw [h2]
        rfl
    · rcases S with _ | ⟨p, ps⟩
      · simp only [List.nil_append] at h1 h2
        refine ⟨[], a :: s, ?_, ?_⟩
        · simp only [splitEq]
          rw [if_neg ha, h1]
          rfl
        · simp only [List.cons_append, splitEq, List.append_eq]
          rw [if_neg ha, h2]
          rfl
      · refine ⟨(a :: p) :: ps, s, ?_, ?_⟩
        · simp only [splitEq]
          rw [if_neg ha, h1]
          rfl
        · simp only [List.cons_append, splitEq, List.append_eq]
          rw [if_neg ha, h2]
          rfl

theorem headerVal_append_newline (l : List Char) :
    headerVal (l ++ ['\n']) = headerVal l := by
  obtain ⟨S, s, h1, h2⟩ := splitEq_append_single l '\n' (by decide)
  unfold headerVal
  rw [h1, h2]
  rcases S with _ | ⟨p, ps⟩
  · rfl
  · rcases ps with _ | ⟨q, qs⟩
    · show pyInt (s ++ ['\n']) = pyInt s
      exact pyInt_append_newline s
    · simp

theorem pyReadlines_newline_split (l : List Char) (rest : List Char)
    (hl : '\n' ∉ l) :
    pyReadlines (l ++ '\n' :: rest) = (l ++ ['\n']) :: pyReadlines rest := by
  induction l with
  | nil => rfl
  | cons a l ih =>
    simp only [List.mem_cons] at hl
    push_neg at hl
    have ha : ¬ a = '\n' := fun h => hl.1 h.symm
    simp only [List.cons_append, pyReadlines, if_neg ha, List.append_eq, ih hl.2]

theorem pyReadlines_no_newline (l : List Char) (hl : '\n' ∉ l) (hne : l ≠ []) :
    pyReadlines l = [l] := by
  induction l with
  | nil => exact absurd rfl hne
  | cons a l ih =>
    simp only [List.mem_cons] at hl
    push_neg at hl
    have ha : ¬ a = '\n' := fun h => hl.1 h.symm
    simp only [pyReadlines, if_neg ha]
    rcases hl2 : l with _ | ⟨b, bs⟩
    · rfl
    · rw [← hl2, ih hl.2 (by simp [hl2])]

theorem unlines_cons_of_ne_nil (l : List Char) (ls : List (List Char)) (h : ls ≠ []) :
    unlines (l :: ls) = l ++ '\n' :: unlines ls := by
  rcases ls with _ | ⟨a, as⟩
  · exact absurd rfl h
  · rfl

theorem pyReadlines_unlines_cons (l : List Char) (ls : List (List Char))
    (hl : '\n' ∉ l) (hne : ls ≠ []) :
    pyReadlines (unlines (l :: ls)) = (l ++ ['\n']) :: pyReadlines (unlines ls) := by
  rw [unlines_cons_of_ne_nil l ls hne, pyReadlines_newline_split l _ hl]

/-- Reading a prefix of blank-or-matching lines accumulates exactly the
setter applications of `applyTriples` and continues with the rest. -/
theorem readLoop_good_leading (gls : List (List Char)) (tail : List (List Char))
    (m : SparseMatrix)
    (h : ∀ l ∈ gls, pyStripL l = [] ∨ (tripleMatch (pyStripL l)).isSome) :
    readLoop m (gls ++ tail) = readLoop (applyTriples m gls) tail := by
  induction gls generalizing m with
  | nil => rfl
  | cons l gls ih =>
    have hl := h l (List.mem_cons_self l gls)
    have hrest : ∀ l' ∈ gls, pyStripL l' = [] ∨ (tripleMatch (pyStripL l')).isSome :=
      fun l' hl' => h l' (List.mem_cons_of_mem l hl')
    simp only [List.cons_append, readLoop, applyTriples, List.foldl_cons]
    rcases hl with hblank | hsome
    · rw [if_pos (List.isEmpty_iff.mpr hblank)]
      have : (if (pyStripL l).isEmpty = true then m
          else match tripleMatch (pyStripL l) with
            | some (row, col, value) => setElement m row col value
            | none => m) = m := by
        rw [if_pos (List.isEmpty_iff.mpr hblank)]
      rw [this]
      exact ih m hrest
    · rcases hm : tripleMatch (pyStripL l) with _ | ⟨row, col, value⟩
      · rw [hm] at hsome
        exact absurd hsome (by simp)
      · have hnb : ¬ (pyStripL l).isEmpty = true := by
          intro hb
          rw [List.isEmpty_iff.mp hb] at hm
          simp [tripleMatch, tripleMatchCore, expectChar] at hm
        rw [if_neg hnb, if_neg hnb]
        exact ih _ hrest

theorem pyReadlines_unlines_append (gls tail : List (List Char))
    (hg : ∀ l ∈ gls, '\n' ∉ l) (hne : tail ≠ []) :
    pyReadlines (unlines (gls ++ tail))
      = gls.map (fun l => l ++ ['\n']) ++ pyReadlines (unlines tail) := by
  induction gls with
  | nil => rfl
  | cons l gls ih =>
    have hne' : gls ++ tail ≠ [] := by
      intro hcontra
      rcases List.append_eq_nil.mp hcontra with ⟨-, h2⟩
      exact hne h2
    rw [List.cons_append,
      pyReadlines_unlines_cons l (gls ++ tail) (hg l (List.mem_cons_self l gls)) hne',
      ih (fun l' hl' => hg l' (List.mem_cons_of_mem l hl'))]
    rfl

theorem applyTriples_map_newline (m : SparseMatrix) (ls : List (List Char)) :
    applyTriples m (ls.map (fun l => l ++ ['\n'])) = applyTriples m ls := by
  induction ls generalizing m with
  | nil => rfl
  | cons l ls ih =>
    simp only [List.map_cons, applyTriples, List.foldl_cons]
    rw [pyStripL_append_trailing l '\n' rfl]
    exact ih _

theorem readLoop_bad_head (m : SparseMatrix) (badl : List Char) (more : List (List Char))
    (hne : pyStripL badl ≠ []) (hnm : tripleMatch (pyStripL badl) = none) :
    readLoop m (badl :: more) = (m, some MatrixError.formatError) := by
  simp only [readLoop]
  rw [if_neg (by simpa using hne), hnm]

/-- C10: parsing is not atomic on failure.  For any prior state `m`, a
text whose two header lines carry integers `r` and `c`, whose next lines
are blank or matched triples, and which then hits an offending line,
leaves the instance holding `Rows = r`, `Colu = c`, and exactly the
entries set from the matched prefix — the previous entries having been
cleared at the start — while raising the format error. -/
theorem c10_parse_partial_state (m : SparseMatrix) (h0 h1 : List Char)
    (gls : List (List Char)) (bad : List Char) (rest : List (List Char)) (r c : Int)
    (hh0 : headerVal h0 = some r) (hh1 : headerVal h1 = some c)
    (hn0 : '\n' ∉ h0) (hn1 : '\n' ∉ h1)
    (hgood : ∀ l ∈ gls, pyStripL l = [] ∨ (tripleMatch (pyStripL l)).isSome)
    (hgnl : ∀ l ∈ gls, '\n' ∉ l)
    (hbne : pyStripL bad ≠ []) (hbnm : tripleMatch (pyStripL bad) = none)
    (hbnl : '\n' ∉ bad) :
    read_from_file m ⟨unlines (h0 :: h1 :: (gls ++ bad :: rest))⟩
      = (applyTriples ⟨r, c, []⟩ gls, some MatrixError.formatError) := by
  obtain ⟨s0, hs0, hi0⟩ : ∃ s0, (splitEq (h0 ++ ['\n']))[1]? = some s0 ∧ pyInt s0 = some r := by
    have h := (headerVal_append_newline h0).trans hh0
    unfold headerVal at h
    rcases hq : (splitEq (h0 ++ ['\n']))[1]? with _ | s0
    · rw [hq] at h
      exact absurd h (by simp)
    · rw [hq] at h
      exact ⟨s0, rfl, h⟩
  obtain ⟨s1, hs1, hi1⟩ : ∃ s1, (splitEq (h1 ++ ['\n']))[1]? = some s1 ∧ pyInt s1 = some c := by
    have h := (headerVal_append_newline h1).trans hh1
    unfold headerVal at h
    rcases hq : (splitEq (h1 ++ ['\n']))[1]? with _ | s1
    · rw [hq] at h
      exact absurd h (by simp)
    · rw [hq] at h
      exact ⟨s1, rfl, h⟩
  have hlines : pyReadlines (unlines (h0 :: h1 :: (gls ++ bad :: rest)))
      = (h0 ++ ['\n']) :: (h1 ++ ['\n'])
        :: (gls.map (fun l => l ++ ['\n']) ++ pyReadlines (unlines (bad :: rest))) := by
    rw [pyReadlines_unlines_cons h0 _ hn0 (by simp),
      pyReadlines_unlines_cons h1 _ hn1 (by simp),
      pyReadlines_unlines_append gls (bad :: rest) hgnl (by simp)]
  unfold read_from_file
  dsimp only
  rw [show (⟨unlines (h0 :: h1 :: (gls ++ bad :: rest))⟩ : String).toList
      = unlines (h0 :: h1 :: (gls ++ bad :: rest)) from rfl]
  rw [hlines]
  simp only [List.getElem?_cons_zero, List.getElem?_cons_succ, hs0, hi0, hs1, hi1,
    List.drop_succ_cons, List.drop_zero]
  have hgoodN : ∀ l ∈ gls.map (fun l => l ++ ['\n']),
      pyStripL l = [] ∨ (tripleMatch (pyStripL l)).isSome := by
    intro l' hl'
    rcases List.mem_map.mp hl' with ⟨l'', hl'', hmap⟩
    rw [← hmap, pyStripL_append_trailing l'' '\n' rfl]
    exact hgood l'' hl''
  rw [readLoop_good_leading _ _ _ hgoodN, applyTriples_map_newline]
  rcases rest with _ | ⟨r0, rs⟩
  · have hbadne : bad ≠ [] := by
      intro hb
      rw [hb] at hbne
      exact hbne rfl
    rw [show unlines [bad] = bad from rfl, pyReadlines_no_newline bad hbnl hbadne,
      readLoop_bad_head _ bad [] hbne hbnm]
  · rw [unlines_cons_of_ne_nil bad (r0 :: rs) (by simp),
      pyReadlines_newline_split bad _ hbnl,
      readLoop_bad_head _ (bad ++ ['\n']) _
        (by rw [pyStripL_append_trailing bad '\n' rfl]; exact hbne)
        (by rw [pyStripL_append_trailing bad '\n' rfl]; exact hbnm)]

/-- Witness for C10: a prior matrix with stale dimensions and entries is
left with the parsed prefix (`rows=2`, `cols=3`, the entry `(0,0,5)`)
when the fourth line `GARBAGE` aborts the parse; the entry `(1,1,9)`
after the offending line is never stored. -/
theorem c10_parse_partial_state_witness :
    read_from_file ⟨7, 9, [((5, 5), 5)]⟩ "rows=2\ncols=3\n(0,0,5)\nGARBAGE\n(1,1,9)"
      = (⟨2, 3, [((0, 0), 5)]⟩, some MatrixError.formatError) := by
  have h := c10_parse_partial_state ⟨7, 9, [((5, 5), 5)]⟩
    ("rows=2".toList) ("cols=3".toList) [("(0,0,5)".toList)] ("GARBAGE".toList)
    [("(1,1,9)".toList)] 2 3
    (by decide) (by decide) (by decide) (by decide)
    (by decide) (by decide) (by decide) (by decide) (by decide)
  exact h

/-! ### Decimal rendering round-trips -/

theorem digitChar_isDigit (d : Nat) : (digitChar d).isDigit = true := by
  unfold digitChar
  repeat' split
  all_goals decide

theorem isPySpace_digitChar (d : Nat) : isPySpace (digitChar d) = false := by
  unfold digitChar
  repeat' split
  all_goals decide

theorem digitChar_ne (d : Nat) (c : Char) (hc : c.isDigit = false) : digitChar d ≠ c := by
  intro he
  rw [← he] at hc
  rw [digitChar_isDigit d] at hc
  exact Bool.noConfusion hc

theorem natReprL_mem (n : Nat) : ∀ c ∈ natReprL n, ∃ d, c = digitChar d := by
  induction n using Nat.strong_induction_on with
  | _ n ih =>
    intro c hc
    rw [natReprL] at hc
    by_cases h : n < 10
    · rw [dif_pos h] at hc
      rcases List.mem_singleton.mp hc with h'
      exact ⟨n, h'⟩
    · rw [dif_neg h] at hc
      rcases List.mem_append.mp hc with h' | h'
      · exact ih (n / 10) (Nat.div_lt_self (by omega) (by omega)) c h'
      · exact ⟨n % 10, List.mem_singleton.mp h'⟩

theorem natReprL_ne_nil (n : Nat) : natReprL n ≠ [] := by
  rw [natReprL]
  by_cases h : n < 10
  · rw [dif_pos h]
    simp
  · rw [dif_neg h]
    simp

theorem natReprL_isDigit (n : Nat) : ∀ c ∈ natReprL n, c.isDigit = true := by
  intro c hc
  obtain ⟨d, rfl⟩ := natReprL_mem n c hc
  exact digitChar_isDigit d

theorem digitChar_toNat (d : Nat) (h : d < 10) : (digitChar d).toNat - 48 = d := by
  interval_cases d <;> decide

theorem digitsVal_append_singleton (xs : List Char) (c : Char) :
    digitsVal (xs ++ [c]) = digitsVal xs * 10 + (c.toNat - 48) := by
  unfold digitsVal
  rw [List.foldl_append]
  rfl

theorem digitsVal_natReprL (n : Nat) : digitsVal (natReprL n) = n := by
  induction n using Nat.strong_induction_on with
  | _ n ih =>
    rw [natReprL]
    by_cases h : n < 10
    · rw [dif_pos h]
      show 0 * 10 + ((digitChar n).toNat - 48) = n
      rw [digitChar_toNat n h]
      omega
    · rw [dif_neg h]
      rw [digitsVal_append_singleton]
      rw [ih (n / 10) (Nat.div_lt_self (by omega) (by omega))]
      rw [digitChar_toNat (n % 10) (by omega)]
      omega

theorem pyStripL_eq_self (l : List Char)
    (h1 : ∀ c ∈ l.take 1, isPySpace c = false)
    (h2 : ∀ c ∈ l.reverse.take 1, isPySpace c = false) :
    pyStripL l = l := by
  unfold pyStripL
  have hfront : l.dropWhile isPySpace = l := by
    rcases l with _ | ⟨a, as⟩
    · rfl
    · rw [List.dropWhile_cons, if_neg]
      rw [h1 a (by simp)]
      simp
  rw [hfront]
  have hback : l.reverse.dropWhile isPySpace = l.reverse := by
    rcases hr : l.reverse with _ | ⟨b, bs⟩
    · rfl
    · rw [List.dropWhile_cons, if_neg]
      rw [h2 b (by simp [hr])]
      simp
  rw [hback, List.reverse_reverse]

theorem takeWhile_digits_append (ds rest : List Char)
    (hds : ∀ c ∈ ds, c.isDigit = true)
    (hrest : ∀ c ∈ rest.take 1, c.isDigit = false) :
    (ds ++ rest).takeWhile Char.isDigit = ds := by
  induction ds with
  | nil =>
    rcases rest with _ | ⟨c, cs⟩
    · rfl
    · rw [List.nil_append, List.takeWhile_cons, if_neg]
      rw [hrest c (by simp)]
      simp
  | cons d ds ih =>
    rw [List.cons_append, List.takeWhile_cons, if_pos (hds d (by simp))]
    rw [ih (fun c hc => hds c (List.mem_cons_of_mem d hc))]

theorem dropWhile_digits_append (ds rest : List Char)
    (hds : ∀ c ∈ ds, c.isDigit = true)
    (hrest : ∀ c ∈ rest.take 1, c.isDigit = false) :
    (ds ++ rest).dropWhile Char.isDigit = rest := by
  induction ds with
  | nil =>
    rcases rest with _ | ⟨c, cs⟩
    · rfl
    · rw [List.nil_append, List.dropWhile_cons, if_neg]
      rw [hrest c (by simp)]
      simp
  | cons d ds ih =>
    rw [List.cons_append, List.dropWhile_cons, if_pos (hds d (by simp))]
    rw [ih (fun c hc => hds c (List.mem_cons_of_mem d hc))]

theorem takeDigits_exact (ds rest : List Char)
    (hds : ∀ c ∈ ds, c.isDigit = true) (hne : ds ≠ [])
    (hrest : ∀ c ∈ rest.take 1, c.isDigit = false) :
    takeDigits (ds ++ rest) = some (digitsVal ds, rest) := by
  unfold takeDigits
  rw [takeWhile_digits_append ds rest hds hrest,
    dropWhile_digits_append ds rest hds hrest]
  rw [if_neg (by simpa using hne)]

theorem splitEq_append_eq (key rest : List Char) (hk : '=' ∉ key) :
    splitEq (key ++ '=' :: rest) = key :: splitEq rest := by
  induction key with
  | nil =>
    show splitEq ('=' :: rest) = [] :: splitEq rest
    simp [splitEq]
  | cons a key ih =>
    simp only [List.mem_cons] at hk
    push_neg at hk
    rw [List.cons_append]
    simp only [splitEq, if_neg (fun h : a = '=' => hk.1 h.symm)]
    rw [ih hk.2]

theorem isDigit_not_pySpace (c : Char) (h : c.isDigit = true) : isPySpace c = false := by
  by_contra hcon
  rw [Bool.not_eq_false] at hcon
  unfold isPySpace at hcon
  simp only [Bool.or_eq_true, decide_eq_true_eq] at hcon
  rcases hcon with (((((h' | h') | h') | h') | h') | h') <;>
    (rw [h'] at h; exact absurd h (by decide))

theorem parseDigits_all (l : List Char) (hne : l ≠ [])
    (hd : ∀ c ∈ l, c.isDigit = true) :
    parseDigits l = some (digitsVal l) := by
  unfold parseDigits
  rw [if_pos ⟨hne, List.all_eq_true.mpr (fun c hc => hd c hc)⟩]

theorem pyInt_digits (l : List Char) (hne : l ≠ [])
    (hd : ∀ c ∈ l, c.isDigit = true) :
    pyInt l = some ((digitsVal l : Int)) := by
  have hstrip : pyStripL l = l :=
    pyStripL_eq_self l
      (fun c hc => isDigit_not_pySpace c (hd c (List.mem_of_mem_take hc)))
      (fun c hc => isDigit_not_pySpace c
        (hd c (List.mem_reverse.mp (List.mem_of_mem_take hc))))
  unfold pyInt
  rw [hstrip]
  split
  · exfalso
    have := hd '-' (by simp)
    exact absurd this (by decide)
  · exfalso
    have := hd '+' (by simp)
    exact absurd this (by decide)
  · rw [parseDigits_all l hne hd]
    rfl

theorem pyInt_neg_digits (l : List Char) (hne : l ≠ [])
    (hd : ∀ c ∈ l, c.isDigit = true) :
    pyInt ('-' :: l) = some (-(digitsVal l : Int)) := by
  have hstrip : pyStripL ('-' :: l) = '-' :: l := by
    refine pyStripL_eq_self _ ?_ ?_
    · intro c hc
      simp only [List.take_succ_cons, List.take_zero, List.mem_singleton] at hc
      subst hc
      rfl
    · intro c hc
      rcases hl : l.reverse with _ | ⟨b, bs⟩
      · exact absurd (List.reverse_eq_nil_iff.mp hl) hne
      · have hrev : ('-' :: l).reverse = b :: (bs ++ ['-']) := by
          rw [List.reverse_cons, hl]
          rfl
        rw [hrev] at hc
        simp only [List.take_succ_cons, List.take_zero, List.mem_singleton] at hc
        subst hc
        refine isDigit_not_pySpace c (hd c (List.mem_reverse.mp ?_))
        rw [hl]
        simp
  unfold pyInt
  rw [hstrip]
  split
  · rename_i ds hmatch
    obtain rfl : l = ds := by
      injection hmatch
    rw [parseDigits_all l hne hd]
    rfl
  · rename_i ds hmatch
    exfalso
    injection hmatch with h1 h2
    exact absurd h1 (by decide)
  · rename_i hmatch1 hmatch2
    exact absurd rfl (hmatch1 l)

theorem pyInt_intReprL (v : Int) : pyInt (intReprL v) = some v := by
  unfold intReprL
  by_cases hv : v < 0
  · rw [if_pos hv,
      pyInt_neg_digits _ (natReprL_ne_nil _) (natReprL_isDigit _), digitsVal_natReprL]
    congr 1
    omega
  · rw [if_neg hv,
      pyInt_digits _ (natReprL_ne_nil _) (natReprL_isDigit _), digitsVal_natReprL]
    congr 1
    omega

theorem readSign_nonneg (ds rest : List Char)
    (hds : ∀ c ∈ ds, c.isDigit = true) (hne : ds ≠ [])
    (hrest : ∀ c ∈ rest.take 1, c.isDigit = false) :
    readSign (ds ++ rest) = some ((digitsVal ds : Int), rest) := by
  unfold readSign
  rcases ds with _ | ⟨d, t⟩
  · exact absurd rfl hne
  · rw [List.cons_append]
    split
    · rename_i cs hm
      exfalso
      injection hm with h1 h2
      have := hds d (by simp)
      rw [h1] at this
      exact absurd this (by decide)
    · rw [show d :: (t ++ rest) = (d :: t) ++ rest from rfl,
        takeDigits_exact (d :: t) rest hds (by simp) hrest]
      rfl

theorem readSign_neg (ds rest : List Char)
    (hds : ∀ c ∈ ds, c.isDigit = true) (hne : ds ≠ [])
    (hrest : ∀ c ∈ rest.take 1, c.isDigit = false) :
    readSign ('-' :: (ds ++ rest)) = some (-(digitsVal ds : Int), rest) := by
  unfold readSign
  split
  · rename_i cs hm
    obtain rfl : ds ++ rest = cs := by
      injection hm
    rw [takeDigits_exact ds rest hds hne hrest]
    rfl
  · rename_i hm1 hm2
    exact absurd rfl (hm2 (ds ++ rest))

theorem dropWhile_space_digit_head (l rest : List Char)
    (hne : l ≠ []) (hd : ∀ c ∈ l.take 1, c.isDigit = true) :
    (l ++ rest).dropWhile isPySpace = l ++ rest := by
  rcases l with _ | ⟨d, t⟩
  · exact absurd rfl hne
  · rw [List.cons_append, List.dropWhile_cons, if_neg]
    rw [isDigit_not_pySpace d (hd d (by simp))]
    simp

theorem expectChar_cons (c : Char) (rest : List Char) :
    expectChar c (c :: rest) = some rest := by
  simp [expectChar]

theorem take1_cons_not_digit (c : Char) (rest : List Char) (hc : c.isDigit = false) :
    ∀ x ∈ (c :: rest).take 1, x.isDigit = false := by
  intro x hx
  simp only [List.take_succ_cons, List.take_zero, List.mem_singleton] at hx
  subst hx
  exact hc

theorem natReprL_take1_digit (n : Nat) : ∀ c ∈ (natReprL n).take 1, c.isDigit = true :=
  fun c hc => natReprL_isDigit n c (List.mem_of_mem_take hc)

theorem tripleMatchCore_entryLine (i j : Nat) (v : Int) :
    tripleMatchCore (entryLineL ((i, j), v)) = some ((i, j, v), []) := by
  simp only [entryLineL, List.cons_append, List.append_assoc]
  unfold tripleMatchCore
  rw [expectChar_cons]
  dsimp only
  rw [takeDigits_exact (natReprL i) (',' :: ' ' :: (natReprL j ++ ',' :: ' ' :: (intReprL v ++ [')'])))
    (natReprL_isDigit i) (natReprL_ne_nil i) (take1_cons_not_digit ',' _ (by decide))]
  dsimp only
  rw [expectChar_cons]
  dsimp only
  rw [List.dropWhile_cons, if_pos (by decide : isPySpace ' ' = true),
    dropWhile_space_digit_head (natReprL j) _ (natReprL_ne_nil j) (natReprL_take1_digit j)]
  rw [takeDigits_exact (natReprL j) (',' :: ' ' :: (intReprL v ++ [')']))
    (natReprL_isDigit j) (natReprL_ne_nil j) (take1_cons_not_digit ',' _ (by decide))]
  dsimp only
  rw [expectChar_cons]
  dsimp only
  rw [List.dropWhile_cons, if_pos (by decide : isPySpace ' ' = true)]
  by_cases hv : v < 0
  · rw [show intReprL v = '-' :: natReprL v.natAbs from by rw [intReprL, if_pos hv]]
    rw [List.cons_append]
    rw [List.dropWhile_cons, if_neg (by decide : ¬ isPySpace '-' = true)]
    rw [readSign_neg (natReprL v.natAbs) [')'] (natReprL_isDigit _) (natReprL_ne_nil _)
      (take1_cons_not_digit ')' _ (by decide))]
    dsimp only
    rw [expectChar_cons]
    simp only [digitsVal_natReprL]
    have hval : -((v.natAbs : Nat) : Int) = v := by omega
    rw [hval]
  · rw [show intReprL v = natReprL v.toNat from by rw [intReprL, if_neg hv]]
    rw [dropWhile_space_digit_head (natReprL v.toNat) _ (natReprL_ne_nil _)
      (natReprL_take1_digit _)]
    rw [readSign_nonneg (natReprL v.toNat) [')'] (natReprL_isDigit _) (natReprL_ne_nil _)
      (take1_cons_not_digit ')' _ (by decide))]
    dsimp only
    rw [expectChar_cons]
    simp only [digitsVal_natReprL]
    have hval : ((v.toNat : Nat) : Int) = v := by omega
    rw [hval]

theorem tripleMatch_entryLine (i j : Nat) (v : Int) :
    tripleMatch (entryLineL ((i, j), v)) = some (i, j, v) := by
  unfold tripleMatch
  rw [tripleMatchCore_entryLine]
  rfl


theorem natReprL_no_newline (n : Nat) : '\n' ∉ natReprL n := by
  intro h
  obtain ⟨d, hd⟩ := natReprL_mem _ _ h
  exact digitChar_ne d '\n' (by decide) hd.symm

theorem intReprL_no_newline (v : Int) : '\n' ∉ intReprL v := by
  intro h
  unfold intReprL at h
  by_cases hv : v < 0
  · rw [if_pos hv] at h
    rcases List.mem_cons.mp h with h' | h'
    · exact absurd h' (by decide)
    · exact natReprL_no_newline _ h'
  · rw [if_neg hv] at h
    exact natReprL_no_newline _ h

theorem entryLineL_no_newline (p : (Nat × Nat) × Int) : '\n' ∉ entryLineL p := by
  intro hmem
  unfold entryLineL at hmem
  simp [natReprL_no_newline, intReprL_no_newline] at hmem

theorem entryLineL_reverse_take1 (p : (Nat × Nat) × Int) :
    (entryLineL p).reverse.take 1 = [')'] := by
  unfold entryLineL
  simp [List.reverse_append, List.reverse_cons]

theorem entryLineL_ne_nil (p : (Nat × Nat) × Int) : entryLineL p ≠ [] := by
  unfold entryLineL
  simp

theorem entryLineL_strip (p : (Nat × Nat) × Int) :
    pyStripL (entryLineL p) = entryLineL p := by
  refine pyStripL_eq_self _ ?_ ?_
  · intro c hc
    unfold entryLineL at hc
    simp only [List.cons_append, List.append_assoc, List.take_succ_cons, List.take_zero,
      List.mem_singleton] at hc
    subst hc
    rfl
  · intro c hc
    rw [entryLineL_reverse_take1 p] at hc
    rw [List.mem_singleton.mp hc]
    rfl

theorem tripleMatch_entryLine_eta (p : (Nat × Nat) × Int) :
    tripleMatch (entryLineL p) = some (p.1.1, p.1.2, p.2) := by
  obtain ⟨⟨i, j⟩, v⟩ := p
  exact tripleMatch_entryLine i j v

theorem dictSet_append (l : List ((Nat × Nat) × Int)) (k : Nat × Nat) (v : Int)
    (h : k ∉ l.map Prod.fst) : dictSet l k v = l ++ [(k, v)] := by
  induction l with
  | nil => rfl
  | cons p rest ih =>
    simp only [List.map_cons, List.mem_cons] at h
    push_neg at h
    simp only [dictSet, if_neg (fun hc : p.1 = k => h.1 hc.symm)]
    rw [ih h.2]
    rfl

theorem setElement_append (m : SparseMatrix) (r c : Nat) (v : Int)
    (hv : v ≠ 0) (hk : (r, c) ∉ keysOf m) :
    setElement m r c v = { m with elements := m.elements ++ [((r, c), v)] } := by
  unfold setElement
  rw [if_pos hv, dictSet_append m.elements (r, c) v hk]

/-- Parsing back the serialized entry lines of a zero-free matrix with
distinct keys appends exactly those entries, in order, through the
setter. -/
theorem readLoop_entryLines (ps : List ((Nat × Nat) × Int)) (m : SparseMatrix)
    (hvals : ∀ p ∈ ps, p.2 ≠ 0)
    (hkeys : ∀ p ∈ ps, p.1 ∉ keysOf m)
    (hnd : (ps.map Prod.fst).Nodup) :
    readLoop m (pyReadlines (unlines (ps.map entryLineL)))
      = ({ m with elements := m.elements ++ ps }, none) := by
  induction ps generalizing m with
  | nil =>
    rw [show ({ m with elements := m.elements ++ [] } : SparseMatrix) = m from by
      rw [List.append_nil]]
    rfl
  | cons p ps ih =>
    have hp2 : p.2 ≠ 0 := hvals p (List.mem_cons_self p ps)
    have hpk : p.1 ∉ keysOf m := hkeys p (List.mem_cons_self p ps)
    have hpk' : (p.1.1, p.1.2) ∉ keysOf m := by
      simpa using hpk
    simp only [List.map_cons, List.nodup_cons] at hnd
    rcases hps : ps with _ | ⟨q, qs⟩
    · rw [show unlines (List.map entryLineL [p]) = entryLineL p from rfl,
        pyReadlines_no_newline _ (entryLineL_no_newline p) (entryLineL_ne_nil p)]
      simp only [readLoop]
      rw [entryLineL_strip,
        if_neg (by simpa using entryLineL_ne_nil p),
        tripleMatch_entryLine_eta p]
      dsimp only
      rw [setElement_append m p.1.1 p.1.2 p.2 hp2 hpk']
    · rw [← hps]
      have hne : ps.map entryLineL ≠ [] := by
        rw [hps]
        simp
      rw [List.map_cons, unlines_cons_of_ne_nil _ _ hne,
        pyReadlines_newline_split _ _ (entryLineL_no_newline p)]
      simp only [readLoop]
      rw [pyStripL_append_trailing _ '\n' rfl, entryLineL_strip,
        if_neg (by simpa using entryLineL_ne_nil p),
        tripleMatch_entryLine_eta p]
      dsimp only
      rw [setElement_append m p.1.1 p.1.2 p.2 hp2 hpk']
      rw [ih { m with elements := m.elements ++ [((p.1.1, p.1.2), p.2)] }
        (fun q' hq' => hvals q' (List.mem_cons_of_mem p hq'))
        ?_ hnd.2]
      · simp
      · intro q' hq'
        simp only [keysOf, List.map_append, List.mem_append]
        push_neg
        refine ⟨fun hc => hkeys q' (List.mem_cons_of_mem p hq') hc, ?_⟩
        simp only [List.map_cons, List.map_nil, List.mem_singleton]
        intro hc
        apply hnd.1
        have hpq : p.1 = q'.1 := hc.symm
        rw [hpq]
        exact List.mem_map_of_mem Prod.fst hq'

theorem intReprL_not_mem (v : Int) (c : Char) (hdig : c.isDigit = false)
    (hminus : c ≠ '-') : c ∉ intReprL v := by
  intro h
  unfold intReprL at h
  by_cases hv : v < 0
  · rw [if_pos hv] at h
    rcases List.mem_cons.mp h with h' | h'
    · exact hminus h'
    · obtain ⟨d, hd⟩ := natReprL_mem _ _ h'
      exact digitChar_ne d c hdig hd.symm
  · rw [if_neg hv] at h
    obtain ⟨d, hd⟩ := natReprL_mem _ _ h
    exact digitChar_ne d c hdig hd.symm

/-- C6: serializing a well-formed matrix (no zero values, distinct keys)
in the output format of `process_file` and parsing the text back yields
the very same rows, cols, and entry list. -/
theorem c6_serialize_parse_roundtrip (m : SparseMatrix)
    (hnz : NoZeros m) (hnd : KeysNodup m) :
    parseText (serialize m) = (m, none) := by
  have hrows : (splitEq (('r' :: 'o' :: 'w' :: 's' :: '=' :: intReprL m.Rows : List Char)
      ++ ['\n']))[1]? = some (intReprL m.Rows ++ ['\n']) := by
    rw [show (('r' :: 'o' :: 'w' :: 's' :: '=' :: intReprL m.Rows : List Char) ++ ['\n'])
        = ['r', 'o', 'w', 's'] ++ '=' :: (intReprL m.Rows ++ ['\n']) from by simp]
    rw [splitEq_append_eq _ _ (by decide)]
    rw [splitEq_no_eq _ (by
      intro hmem
      rcases List.mem_append.mp hmem with h' | h'
      · exact intReprL_not_mem m.Rows '=' (by decide) (by decide) h'
      · exact absurd (List.mem_singleton.mp h') (by decide))]
    rfl
  have hcols : (splitEq (('c' :: 'o' :: 'l' :: 's' :: '=' :: intReprL m.Colu : List Char)
      ++ ['\n']))[1]? = some (intReprL m.Colu ++ ['\n']) := by
    rw [show (('c' :: 'o' :: 'l' :: 's' :: '=' :: intReprL m.Colu : List Char) ++ ['\n'])
        = ['c', 'o', 'l', 's'] ++ '=' :: (intReprL m.Colu ++ ['\n']) from by simp]
    rw [splitEq_append_eq _ _ (by decide)]
    rw [splitEq_no_eq _ (by
      intro hmem
      rcases List.mem_append.mp hmem with h' | h'
      · exact intReprL_not_mem m.Colu '=' (by decide) (by decide) h'
      · exact absurd (List.mem_singleton.mp h') (by decide))]
    rfl
  have hR : pyInt (intReprL m.Rows ++ ['\n']) = some m.Rows := by
    rw [pyInt_append_newline, pyInt_intReprL]
  have hC : pyInt (intReprL m.Colu ++ ['\n']) = some m.Colu := by
    rw [pyInt_append_newline, pyInt_intReprL]
  have hl0 : serializeL m
      = ('r' :: 'o' :: 'w' :: 's' :: '=' :: intReprL m.Rows)
        ++ '\n' :: (('c' :: 'o' :: 'l' :: 's' :: '=' :: intReprL m.Colu)
        ++ '\n' :: toStrL m) := by
    unfold serializeL
    simp
  have hnl0 : '\n' ∉ ('r' :: 'o' :: 'w' :: 's' :: '=' :: intReprL m.Rows : List Char) := by
    simp [intReprL_no_newline]
  have hnl1 : '\n' ∉ ('c' :: 'o' :: 'l' :: 's' :: '=' :: intReprL m.Colu : List Char) := by
    simp [intReprL_no_newline]
  unfold parseText read_from_file
  dsimp only
  rw [show (serialize m).toList = serializeL m from rfl]
  rw [hl0, pyReadlines_newline_split _ _ hnl0, pyReadlines_newline_split _ _ hnl1]
  simp only [List.getElem?_cons_zero, List.getElem?_cons_succ, List.drop_succ_cons,
    List.drop_zero, hrows, hR, hcols, hC]
  rw [show toStrL m = unlines (m.elements.map entryLineL) from rfl]
  rw [readLoop_entryLines m.elements _ hnz (by
      intro p hp
      simp [keysOf]) hnd]
  simp

/-- Witness for C6 at a concrete matrix with a negative value and
several entries. -/
theorem c6_serialize_parse_roundtrip_witness :
    parseText (serialize ⟨2, 3, [((0, 1), -5), ((1, 0), 7)]⟩)
      = (⟨2, 3, [((0, 1), -5), ((1, 0), 7)]⟩, none) :=
  c6_serialize_parse_roundtrip ⟨2, 3, [((0, 1), -5), ((1, 0), 7)]⟩ (by decide) (by decide)
